import Mathlib

/-!
# Region-Detection pipeline: shallow embedding and verification

This file embeds the curve-processing pipeline of
`region_detection_core/src/region_detector.cpp` in Lean 4 and settles the
frozen claims about it.

Modelling conventions:
* pixel coordinates are `ℤ × ℤ`; C++ `int` division (`linspace<int>`) is
  `Int.div` (truncation toward zero), matching C++ semantics on the inputs
  that occur (no overflow is modelled);
* 3D points carry exact rational coordinates (`ℚ`); the C++ code only ever
  *compares* Euclidean norms against configured thresholds or against each
  other, so every comparison is embedded squared-distance against squared
  threshold, with bridging lemmas relating them to the real `Real.sqrt`
  norm comparisons the C++ performs;
* a PCL organized cloud is a grid of `Option V3`, `none` standing for a
  NaN sentinel point; `pcl::removeNaNFromPointCloud` is `List.filterMap id`;
* third-party geometric primitives that are not part of this repository
  (voxel-grid downsampling, concave hull, statistical outlier removal, PCA
  normal estimation) enter the embedding as explicit function parameters
  (`Ext`); a FLANN exact nearest-neighbour search is embedded as the
  first index attaining the minimal squared distance;
* C++ calls whose behaviour is undefined on empty containers
  (`front()`/`back()` on an empty cloud) are modelled with a fixed default
  point; those situations are unreachable on the runs examined below.
-/

namespace RegionDetect

/- The Batteries rational primitives are `@[irreducible]`, which blocks the
`decide`-based evaluation of the embedded pipeline on concrete inputs; for
this file they are restored to the default transparency. -/
attribute [local semireducible] Rat.add Rat.mul Rat.sub Rat.inv Rat.ofScientific

/-- A 3D point with exact rational coordinates (embeds `pcl::PointXYZ`). -/
structure V3 where
  x : ℚ
  y : ℚ
  z : ℚ
deriving DecidableEq, Repr

/-- The zero point, used as the junk value modelling undefined behaviour of
`front()`/`back()` on empty clouds. -/
def V3.zero : V3 := ⟨0, 0, 0⟩

instance : Inhabited V3 := ⟨V3.zero⟩

/-- Componentwise difference. -/
def V3.sub (a b : V3) : V3 := ⟨a.x - b.x, a.y - b.y, a.z - b.z⟩

/-- Squared Euclidean norm. -/
def V3.sqNorm (v : V3) : ℚ := v.x * v.x + v.y * v.y + v.z * v.z

/-- Squared Euclidean distance between two points. -/
def sqDist (a b : V3) : ℚ := (a.sub b).sqNorm

/-- Embeds the C++ comparison `diff.norm() < t`:
`√d < t ↔ 0 ≤ t ∧ d < t²` (for `0 ≤ d`). -/
def sqnLt (d t : ℚ) : Prop := 0 ≤ t ∧ d < t * t

/-- Embeds the C++ comparison `diff.norm() > t`:
`√d > t ↔ t < 0 ∨ t² < d` (for `0 ≤ d`). -/
def sqnGt (d t : ℚ) : Prop := t < 0 ∨ t * t < d

instance (d t : ℚ) : Decidable (sqnLt d t) :=
  inferInstanceAs (Decidable (0 ≤ t ∧ d < t * t))

instance (d t : ℚ) : Decidable (sqnGt d t) :=
  inferInstanceAs (Decidable (t < 0 ∨ t * t < d))

/-! ## Contour densification (compute, lines 553-583, and `linspace`) -/

/-- An integer pixel location (embeds `cv::Point`). -/
abbrev Pix := ℤ × ℤ

/-- Chebyshev distance `max(|Δx|, |Δy|)` between two pixels, as computed at
lines 564-566 of `region_detector.cpp`. -/
def chebDist (p q : Pix) : ℤ := max |q.1 - p.1| |q.2 - p.2|

/-- Embeds `linspace<int>(a, b, N)`: `h = (b-a)/(N-1)` with C++ `int`
division (truncation toward zero), and `xs[k] = a + k*h`. -/
def linspaceI (a b : ℤ) (n : ℕ) : List ℤ :=
  (List.range n).map (fun (k : ℕ) => a + (k : ℤ) * (Int.tdiv (b - a) ((n : ℤ) - 1)))

/-- The points emitted for one consecutive contour pair `(p1, p2)` by the
interpolation loop of `compute` (lines 559-581): if the Chebyshev distance
is `≤ MIN_PIXEL_DISTANCE = 1` only `p2` is pushed, otherwise all
`d+1` points of the integer linspace from `p1` (inclusive) are pushed. -/
def densifyPair (p1 p2 : Pix) : List Pix :=
  let d := chebDist p1 p2
  if d ≤ 1 then [p2]
  else
    let n := (d + 1).toNat
    List.zip (linspaceI p1.1 p2.1 n) (linspaceI p1.2 p2.2 n)

/-- Walk of the remaining contour vertices. -/
def densifyGo (p : Pix) : List Pix → List Pix
  | [] => []
  | q :: rest => densifyPair p q ++ densifyGo q rest

/-- Embeds the whole contour-densification loop: the front vertex is pushed
first (line 558) and then every consecutive pair is interpolated. -/
def densify : List Pix → List Pix
  | [] => []
  | p :: rest => p :: densifyGo p rest

/-- 8-connectivity of two pixels: Chebyshev distance at most one. -/
def cheb1 (a b : Pix) : Prop := chebDist a b ≤ 1

instance (a b : Pix) : Decidable (cheb1 a b) :=
  inferInstanceAs (Decidable (chebDist a b ≤ 1))

/-- A consecutive input pair is benign for densification when it is already
8-connected or both coordinate deltas are exact multiples of the Chebyshev
distance (so the integer-division step of `linspace<int>` is exact). -/
def goodPair (p q : Pix) : Prop :=
  chebDist p q ≤ 1 ∨ (chebDist p q ∣ (q.1 - p.1) ∧ chebDist p q ∣ (q.2 - p.2))

instance (p q : Pix) : Decidable (goodPair p q) :=
  inferInstanceAs (Decidable (_ ∨ _))

/-! ## Greedy nearest-neighbour sequencing (`RegionDetector::sequence`) -/

/-- Exact nearest-neighbour search with `k = 1` over the subset of `cloud`
selected by `idxs` (embeds `pcl::KdTreeFLANN::nearestKSearch` restricted to
`cloud_indices`): the first index in `idxs` attaining the minimal squared
distance to `q`; `none` exactly when the subset is empty. -/
def nearestInSubset (cloud : List V3) (idxs : List ℕ) (q : V3) : Option ℕ :=
  match idxs with
  | [] => none
  | i :: rest =>
    match nearestInSubset cloud rest q with
    | none => some i
    | some j =>
      if sqDist (cloud.getD j V3.zero) q < sqDist (cloud.getD i V3.zero) q
      then some j else some i

/-- State of the reordering loop of `RegionDetector::sequence`
(lines 159-240): the sequenced index list, the sequenced points, the
unsequenced index list, the current search index/point, and the iteration
counter `iter_count`. -/
structure SeqState where
  seqIdx : List ℕ
  seqPts : List V3
  unseq : List ℕ
  searchIdx : ℕ
  searchPt : V3
  iters : ℕ
deriving Repr

/-- The tail of one loop iteration of `RegionDetector::sequence` after the
nearest neighbour `j` was found and found not yet sequenced (lines 207-239):
push the search point first if the sequenced list is empty, reverse the
sequenced list when the newly found point is closer to the start point than
to the current search point, then append the found point and make it the
new search point. -/
def seqAppend (cloud : List V3) (st : SeqState) (unseq2 : List ℕ) (j : ℕ) : SeqState :=
  let seqIdx1 := if st.seqIdx = [] then [st.searchIdx] else st.seqIdx
  let seqPts1 := if st.seqIdx = [] then [st.searchPt] else st.seqPts
  let closest := cloud.getD j V3.zero
  let start := cloud.getD (seqIdx1.headD 0) V3.zero
  let seqIdx2 := if sqDist start closest < sqDist st.searchPt closest
    then seqIdx1.reverse else seqIdx1
  let seqPts2 := if sqDist start closest < sqDist st.searchPt closest
    then seqPts1.reverse else seqPts1
  { seqIdx := seqIdx2 ++ [j], seqPts := seqPts2 ++ [closest],
    unseq := unseq2, searchIdx := j, searchPt := closest,
    iters := st.iters + 1 }

/-- One-to-one embedding of the `while(iter_count <= max_iters)` loop of
`RegionDetector::sequence`.  The fuel argument models the iteration cap: the
C++ counter admits at most `max_iters + 1` body executions.  The
`erase-remove` on the unsequenced indices removes the single occurrence of
the current search index (the entries are pairwise distinct).  The
`continue` branch for an already-sequenced nearest neighbour is embedded
verbatim; it is proved unreachable below. -/
def seqLoop (cloud : List V3) : ℕ → SeqState → SeqState
  | 0, st => st
  | fuel + 1, st =>
    let unseq2 := st.unseq.erase st.searchIdx
    if unseq2 = [] then
      { st with unseq := unseq2, iters := st.iters + 1 }
    else
      match nearestInSubset cloud unseq2 st.searchPt with
      | none => { st with unseq := unseq2, iters := st.iters + 1 }
      | some j =>
        if j ∈ (if st.seqIdx = [] then [st.searchIdx] else st.seqIdx) then
          seqLoop cloud fuel
            { st with
              seqIdx := if st.seqIdx = [] then [st.searchIdx] else st.seqIdx,
              seqPts := if st.seqIdx = [] then [st.searchPt] else st.seqPts,
              unseq := unseq2, iters := st.iters + 1 }
        else
          seqLoop cloud fuel (seqAppend cloud st unseq2 j)

/-- Initial loop state: `search_point_idx = 0`,
`search_point = start_point = cloud[0]`, all indices unsequenced. -/
def seqInit (cloud : List V3) : SeqState :=
  { seqIdx := [], seqPts := [], unseq := List.range cloud.length,
    searchIdx := 0, searchPt := cloud.getD 0 V3.zero, iters := 0 }

/-- The full run of the sequencing loop with the C++ iteration budget
`max_iters + 1 = cloud.size() + 1`. -/
def seqRun (cloud : List V3) : SeqState :=
  seqLoop cloud (cloud.length + 1) (seqInit cloud)

/-- Embeds `RegionDetector::sequence`: the reordered points. -/
def sequence (cloud : List V3) : List V3 := (seqRun cloud).seqPts

/-- Number of loop iterations executed by `RegionDetector::sequence`
(the final value of `iter_count`). -/
def sequenceSteps (cloud : List V3) : ℕ := (seqRun cloud).iters

/-- Point of `cloud` at index `i` (with the junk default for out-of-range
access, which never occurs on the indices the loop produces). -/
def getP (cloud : List V3) (i : ℕ) : V3 := cloud.getD i V3.zero

/-- Loop invariant of the sequencing loop: the sequenced points mirror the
sequenced indices, the search point mirrors the search index, both index
lists are duplicate-free, the search index is still unsequenced, and the
only index both sequenced and unsequenced is the search index (whose
erasure is pending). -/
structure SeqInv (cloud : List V3) (st : SeqState) : Prop where
  pts : st.seqPts = st.seqIdx.map (getP cloud)
  spt : st.searchPt = getP cloud st.searchIdx
  nodupSeq : st.seqIdx.Nodup
  nodupUn : st.unseq.Nodup
  smem : st.searchIdx ∈ st.unseq
  inter : ∀ i ∈ st.seqIdx, i ∈ st.unseq → i = st.searchIdx

/-! ## Discontinuity splitting (`RegionDetector::split`, lines 246-307) -/

/-- `MIN_POINT_DIST = 1e-8` (line 60), idealized as the exact rational. -/
def minPointDist : ℚ := 1 / 100000000

/-- The inner dedup walk of the segment-building loop (lines 278-292): a
point closer than `MIN_POINT_DIST` to the last *kept* point is dropped. -/
def dedupGo (prev : V3) : List V3 → List V3
  | [] => []
  | p :: rest =>
    if sqnLt (sqDist p prev) minPointDist then dedupGo prev rest
    else p :: dedupGo p rest

/-- Dedup of one segment: the first point is always kept. -/
def dedupPts : List V3 → List V3
  | [] => []
  | p :: rest => p :: dedupGo p rest

/-- The slice of indices `[s, e]` of `pts`. -/
def segmentSlice (pts : List V3) (s e : ℕ) : List V3 :=
  (pts.drop s).take (e + 1 - s)

/-- Embeds the index walk of `RegionDetector::split`: the segment is
extended while the next point is within `split_dist`; a boundary at the
segment start discards the single point; a deduplicated segment of at most
one point is skipped (without advancing the segment start, as in the
source); other segments are emitted. -/
def splitAux (pts : List V3) (splitDist : ℚ) : ℕ → ℕ → ℕ → List (List V3) → List (List V3)
  | 0, _, _, acc => acc
  | fuel + 1, i, start, acc =>
    if i < pts.length then
      if i < pts.length - 1 ∧
          sqnLt (sqDist (pts.getD (i+1) V3.zero) (pts.getD i V3.zero)) splitDist then
        splitAux pts splitDist fuel (i+1) start acc
      else if i = start then
        splitAux pts splitDist fuel (i+1) (i+1) acc
      else
        let seg := dedupPts (segmentSlice pts start i)
        if seg.length ≤ 1 then
          splitAux pts splitDist fuel (i+1) start acc
        else
          splitAux pts splitDist fuel (i+1) (i+1) (acc ++ [seg])
    else acc

/-- Embeds `RegionDetector::split`.  The loop index runs `0 ≤ i <
pts.length` and advances by one each iteration, so `pts.length` rounds of
structural fuel replay the `for` loop exactly. -/
def split (pts : List V3) (splitDist : ℚ) : List (List V3) :=
  splitAux pts splitDist pts.length 0 0 []

/-! ## Closed/open classification (`RegionDetector::findClosedCurves`) -/

/-- Closing a curve: the first point is copied to the end (line 320). -/
def closeCurve (c : List V3) : List V3 := c ++ [c.headD V3.zero]

/-- Embeds `RegionDetector::findClosedCurves` (lines 309-332): a curve
whose endpoints are within `max_dist` is closed by duplicating its front
point; the function returns the closed and open curves in input order. -/
def findClosedCurves (maxDist : ℚ) (curves : List (List V3)) :
    List (List V3) × List (List V3) :=
  curves.foldl
    (fun acc c =>
      if sqnLt (sqDist (c.headD V3.zero) (c.getLastD V3.zero)) maxDist then
        (acc.1 ++ [closeCurve c], acc.2)
      else
        (acc.1, acc.2 ++ [c]))
    ([], [])

/-! ## Simplification by minimum length (`simplifyByMinimunLength`) -/

/-- Embeds the per-segment body of `RegionDetector::simplifyByMinimunLength`
(lines 773-789): keep the front, keep interior vertices farther than
`min_length` from the last kept vertex, and push the back unconditionally. -/
def simplifyCurve (minLen : ℚ) (seg : List V3) : List V3 :=
  let interior := (seg.drop 1).take (seg.length - 2)
  let kept := interior.foldl
    (fun acc p =>
      if sqnGt (sqDist (acc.getLastD V3.zero) p) minLen then acc ++ [p] else acc)
    [seg.headD V3.zero]
  kept ++ [seg.getLastD V3.zero]

/-- Embeds `RegionDetector::simplifyByMinimunLength`. -/
def simplifyByMinimunLength (minLen : ℚ) (segments : List (List V3)) : List (List V3) :=
  segments.map (simplifyCurve minLen)

/-! ## Curve merging (`RegionDetector::mergeCurves`, lines 944-995) -/

/-- `std::min_element` over the four endpoint distances: the first
minimum wins (strict improvement only). -/
def min4 (d0 d1 d2 d3 : ℚ) : ℕ × ℚ :=
  let m1 : ℕ × ℚ := if d1 < d0 then (1, d1) else (0, d0)
  let m2 : ℕ × ℚ := if d2 < m1.2 then (2, d2) else m1
  if d3 < m2.2 then (3, d3) else m2

/-- Embeds `RegionDetector::mergeCurves`: the four endpoint-to-endpoint
distances are compared (squared) and the first minimum selects the merge
method; `none` models `return false` (curves too far to merge). -/
def mergeCurves (maxMergeDist : ℚ) (c1 c2 : List V3) : Option (List V3) :=
  let m3 := min4
    (sqDist (c1.headD V3.zero) (c2.headD V3.zero))
    (sqDist (c1.headD V3.zero) (c2.getLastD V3.zero))
    (sqDist (c1.getLastD V3.zero) (c2.headD V3.zero))
    (sqDist (c1.getLastD V3.zero) (c2.getLastD V3.zero))
  if sqnGt m3.2 maxMergeDist then none
  else some (match m3.1 with
    | 0 => c2.reverse ++ c1
    | 1 => c2 ++ c1
    | 2 => c1 ++ c2
    | _ => c1 ++ c2.reverse)

/-! ## Cross-bundle assembly (`combineIntoClosedRegions`, lines 834-942) -/

/-- One pass of the inner `for(int idx : merge_candidate_indices)` loop:
already-merged candidates are skipped, a successful merge replaces the
current curve, records both indices as merged and raises the merged flag.
(The C++ sort-unique of the merged index list only normalizes its
representation; membership, the only thing read from it, is unchanged.) -/
def mergeInnerFor (maxMergeDist : ℚ) (curves : List (List V3)) (i : ℕ) :
    List ℕ → List V3 → List ℕ → Bool → List V3 × List ℕ × Bool
  | [], cur, merged, flag => (cur, merged, flag)
  | idx :: rest, cur, merged, flag =>
    if idx ∈ merged then mergeInnerFor maxMergeDist curves i rest cur merged flag
    else
      match mergeCurves maxMergeDist cur (curves.getD idx []) with
      | some m => mergeInnerFor maxMergeDist curves i rest m (merged ++ [i, idx]) true
      | none => mergeInnerFor maxMergeDist curves i rest cur merged flag

/-- The `do { ... } while(merged_curves)` loop.  Each flagged pass marks at
least one previously unmerged index as merged, so `curves.length + 1`
rounds of fuel always suffice to reach the fixed point the C++ loop
reaches. -/
def mergeDoWhile (maxMergeDist : ℚ) (curves : List (List V3)) (i : ℕ)
    (cand : List ℕ) : ℕ → List V3 → List ℕ → List V3 × List ℕ
  | 0, cur, merged => (cur, merged)
  | f + 1, cur, merged =>
    match mergeInnerFor maxMergeDist curves i cand cur merged false with
    | (cur2, merged2, true) => mergeDoWhile maxMergeDist curves i cand f cur2 merged2
    | (cur2, merged2, false) => (cur2, merged2)

/-- Accumulator of the outer loop of `combineIntoClosedRegions`. -/
structure CombineState where
  merged : List ℕ
  closedC : List (List V3)
  openC : List (List V3)

/-- Embeds `RegionDetector::combineIntoClosedRegions`: every unmerged curve
is repeatedly extended by merging close curves, then classified as closed
(`first==last` after the closing push) or open; curves never touched are
carried to the open list; the boolean result is `false` exactly when no
closed curve was produced (the caller ignores it). -/
def combineIntoClosedRegions (closedMaxDist maxMergeDist : ℚ)
    (contours : List (List V3)) : Bool × List (List V3) × List (List V3) :=
  let n := contours.length
  let final := (List.range n).foldl
    (fun (st : CombineState) i =>
      if i ∈ st.merged then st
      else
        let cand := (List.range n).erase i
        let (cur, merged2) := mergeDoWhile maxMergeDist contours i cand (n + 1)
          (contours.getD i []) st.merged
        if sqnLt (sqDist (cur.headD V3.zero) (cur.getLastD V3.zero)) closedMaxDist then
          { merged := merged2 ++ [i], closedC := st.closedC ++ [closeCurve cur],
            openC := st.openC }
        else
          { merged := merged2 ++ [i], closedC := st.closedC,
            openC := st.openC ++ [cur] })
    ⟨[], [], []⟩
  let leftovers := (List.range n).filter (fun i => i ∉ final.merged)
  let openAll := final.openC ++ leftovers.map (fun i => contours.getD i [])
  (!final.closedC.isEmpty, final.closedC, openAll)

/-! ## 2D→3D lift (`extractContoursFromCloud`, lines 794-832) -/

/-- An organized point cloud (width×height grid, pixel-registered with the
image); `none` models a NaN sentinel point. -/
structure OrgCloud where
  w : ℕ
  h : ℕ
  data : ℕ → ℕ → Option V3

/-- Look up one pixel contour in the organized cloud; out-of-range indices
(including negatives, which the C++ signed-to-unsigned comparison also
catches) fail. -/
def extractOne (cloud : OrgCloud) : List Pix → Except String (List (Option V3))
  | [] => .ok []
  | p :: rest =>
    if p.1 < 0 ∨ (cloud.w : ℤ) ≤ p.1 ∨ p.2 < 0 ∨ (cloud.h : ℤ) ≤ p.2 then
      .error "2D indices exceed point cloud size"
    else do
      let vs ← extractOne cloud rest
      .ok (cloud.data p.1.toNat p.2.toNat :: vs)

def extractGo (cloud : OrgCloud) : List (List Pix) → Except String (List (List (Option V3)))
  | [] => .ok []
  | c :: rest =>
    if c = [] then .error "Empty indices vector was passed"
    else do
      let pts ← extractOne cloud c
      let more ← extractGo cloud rest
      .ok (pts :: more)

/-- Embeds `RegionDetector::extractContoursFromCloud`: fails when the cloud
is not organized (`height <= 1`), on an empty contour, on an out-of-range
pixel, and (with an empty message) when no contour at all was extracted. -/
def extractContoursFromCloud (cloud : OrgCloud) (contours : List (List Pix)) :
    Except String (List (List (Option V3))) :=
  if cloud.h ≤ 1 then .error "Point Cloud not organized"
  else do
    let res ← extractGo cloud contours
    if res = [] then .error "" else .ok res

/-- Embeds `pcl::removeNaNFromPointCloud`: order-preserving compaction. -/
def removeNaN (c : List (Option V3)) : List V3 := c.filterMap id

/-! ## Normal estimation and pose construction -/

/-- A point paired with its surface normal (embeds `pcl::PointNormal`). -/
structure PN where
  pos : V3
  nrm : V3
deriving DecidableEq, Repr

instance : Inhabited PN := ⟨⟨V3.zero, V3.zero⟩⟩

/-- Full-cloud exact nearest-neighbour search (kd-tree with k = 1). -/
def nearestIdx (pts : List V3) (q : V3) : Option ℕ :=
  nearestInSubset pts (List.range pts.length) q

/-- Per-curve body of `RegionDetector::computeNormals` (lines 1027-1047):
each curve point is paired with the normal of its nearest downsampled
source point; position from the curve, normal from the source. -/
def computeNormalsCurve (ds : List V3) (normalAt : ℕ → V3) :
    List V3 → Except String (List PN)
  | [] => .ok []
  | p :: rest =>
    match nearestIdx ds p with
    | none => .error "Found no points near curve, can not get normal vector"
    | some i => do
      let more ← computeNormalsCurve ds normalAt rest
      .ok ({ pos := p, nrm := normalAt i } :: more)

def computeNormalsGo (ds : List V3) (normalAt : ℕ → V3) :
    List (List V3) → Except String (List PN)
  | [] => .ok []
  | c :: rest => do
    let cn ← computeNormalsCurve ds normalAt c
    let more ← computeNormalsGo ds normalAt rest
    .ok (cn ++ more)

/-- Data of one pose before the floating-point frame construction: the
current curve point, the neighbour it points to, the direction sign, and
the looked-up surface normal (lines 1097-1122). -/
structure PoseSpec where
  origin : V3
  target : V3
  dir : ℚ
  nrm : V3
deriving DecidableEq, Repr

/-- The per-vertex index bookkeeping of the pose loop: interior vertices
point forward (`dir = 1`), the last vertex points backward with
`dir = -1`.  (For a one-point curve the C++ `i-1` underflows and
`at()` throws; such curves cannot reach this loop because
`simplifyByMinimunLength` always emits at least two vertices.) -/
def mkSpecs (curve : List V3) (nrms : List V3) : List PoseSpec :=
  (List.range curve.length).map (fun i =>
    if i + 1 ≥ curve.length then
      { origin := curve.getD i V3.zero, target := curve.getD (i - 1) V3.zero,
        dir := -1, nrm := nrms.getD i V3.zero }
    else
      { origin := curve.getD i V3.zero, target := curve.getD (i + 1) V3.zero,
        dir := 1, nrm := nrms.getD i V3.zero })

/-- The fresh nearest-neighbour normal lookup at the start of
`computePoses` (lines 1076-1089). -/
def lookupNormals (src : List PN) : List V3 → Except String (List V3)
  | [] => .ok []
  | p :: rest =>
    match nearestIdx (src.map (fun pn => pn.pos)) p with
    | none => .error "Kdtree found no nearby points during pose computation"
    | some i => do
      let more ← lookupNormals src rest
      .ok ((src.getD i default).nrm :: more)

/-- Embeds `RegionDetector::computePoses`: per curve, normals are re-looked
up in the accumulated source normal cloud and the pose data is emitted; a
failed lookup aborts, keeping the poses of the already-processed curves
(the caller ignores the failure flag). -/
def computePoses (src : List PN) : List (List V3) → Bool × List (List PoseSpec)
  | [] => (true, [])
  | c :: rest =>
    match lookupNormals src c with
    | .error _ => (false, [])
    | .ok nrms =>
      let (b, more) := computePoses src rest
      (b, mkSpecs c nrms :: more)

/-! ## Configuration, external primitives, and `compute` -/

/-- The `pcl_2d_cfg` group. -/
structure Pcl2DCfg where
  downsampling_radius : ℚ
  split_dist : ℚ
  closed_curve_max_dist : ℚ
  simplification_min_points : ℕ
  simplification_alpha : ℚ

/-- The `normal_est` group. -/
structure NormalEstCfg where
  downsampling_radius : ℚ
  search_radius : ℚ
  kdtree_epsilon : ℚ

/-- The `pcl_cfg` group. -/
structure PclCfg where
  max_merge_dist : ℚ
  closed_curve_max_dist : ℚ
  simplification_min_dist : ℚ
  min_num_points : ℕ
  stat_removal_enable : Bool
  normal_est : NormalEstCfg

/-- The configuration record of `RegionDetector` (image options excluded:
they only influence the OpenCV stage, which enters the embedding through
its outcome). -/
structure Config where
  pcl_2d_cfg : Pcl2DCfg
  pcl_cfg : PclCfg

/-- Third-party geometric primitives used by the pipeline but implemented
outside this repository (PCL voxel grid, QHull concave hull, statistical
outlier removal, PCA normal estimation).  They are parameters of the
embedding; every theorem about `compute` is quantified over them. -/
structure Ext where
  downsample2d : ℚ → List V3 → List V3
  hull : ℚ → List V3 → List V3
  sor : List V3 → List V3
  downsample3d : ℚ → List (Option V3) → List V3
  normalAt : List V3 → ℕ → V3

/-- One input bundle as seen by the embedded `compute`: the outcome of the
OpenCV contour stage (`compute2dContours` is pure OpenCV and enters through
its result), the diagnostic image it rendered (a tag), the organized cloud
and the rigid transform. -/
structure Bundle where
  cvResult : Except String (List (List Pix))
  cvImage : ℕ
  cloud : OrgCloud
  transform : V3 → V3

/-- Truncation toward zero of a rational, embedding the C++ float-to-int
conversion in `convertCloudTo2DContour`. -/
def ratTrunc (q : ℚ) : ℤ := Int.tdiv q.num q.den

/-- `convertCloudTo2DContour` for one point. -/
def toPixel (v : V3) : Pix := (ratTrunc v.x, ratTrunc v.y)

/-- `convert2DContourToCloud` for one contour: pixel coords with `z = 0`. -/
def pixToV3 (p : Pix) : V3 := ⟨(p.1 : ℚ), (p.2 : ℚ), 0⟩

/-- The 2D conditioning section of `compute` (lines 553-648): densify,
lift to `z = 0` clouds, optionally downsample, sequence, split, classify,
and concave-hull-simplify sufficiently large closed curves. -/
def processContours2d (cfg : Config) (ext : Ext) (contours : List (List Pix)) :
    List (List V3) × List (List V3) :=
  let densified := contours.map densify
  let clouds0 := densified.map (fun c => c.map pixToV3)
  let clouds := if 0 < cfg.pcl_2d_cfg.downsampling_radius
    then clouds0.map (ext.downsample2d cfg.pcl_2d_cfg.downsampling_radius)
    else clouds0
  let seqd := clouds.map RegionDetect.sequence
  let splitted := (seqd.map (fun c => split c cfg.pcl_2d_cfg.split_dist)).flatten
  let (closed2d, open2d) :=
    findClosedCurves cfg.pcl_2d_cfg.closed_curve_max_dist splitted
  let closed2dS := closed2d.map (fun c =>
    if c.length < cfg.pcl_2d_cfg.simplification_min_points then c
    else closeCurve (RegionDetect.sequence
      (ext.hull cfg.pcl_2d_cfg.simplification_alpha c)))
  (closed2dS, open2d)

/-- The transformed organized cloud as an unorganized point list in PCL
storage order (row major), as fed to normal estimation. -/
def orgCloudToList (cloud : OrgCloud) : List (Option V3) :=
  ((List.range cloud.h).map
    (fun y => (List.range cloud.w).map (fun x => cloud.data x y))).flatten

/-- Normal estimation for all curves of one bundle
(`RegionDetector::computeNormals`): downsample the transformed source
cloud, estimate normals (the `Ext.normalAt` parameter), and pair every
curve point with its nearest downsampled point's normal. -/
def computeNormalsAll (cfg : Config) (ext : Ext) (cloudList : List (Option V3))
    (curves : List (List V3)) : Except String (List PN) :=
  let ds := ext.downsample3d cfg.pcl_cfg.normal_est.downsampling_radius cloudList
  computeNormalsGo ds (ext.normalAt ds) curves

/-- The per-bundle work of `compute` after the OpenCV stage succeeded:
2D conditioning, pixel conversion, rigid transform, 3D extraction, NaN
removal, optional statistical outlier removal, normal estimation, and the
closed/open prefix split (lines 553-723). -/
def processBundle (cfg : Config) (ext : Ext) (b : Bundle)
    (contours : List (List Pix)) :
    Except String (List (List V3) × List (List V3) × List PN) := do
  let (closed2d, open2d) := processContours2d cfg ext contours
  let pixAll := (closed2d ++ open2d).map (fun c => c.map toPixel)
  let tcloud : OrgCloud :=
    { w := b.cloud.w, h := b.cloud.h,
      data := fun x y => (b.cloud.data x y).map b.transform }
  let extracted ← extractContoursFromCloud tcloud pixAll
  let cleaned := extracted.map (fun c =>
    let c2 := removeNaN c
    if cfg.pcl_cfg.stat_removal_enable then ext.sor c2 else c2)
  let normals ← computeNormalsAll cfg ext (orgCloudToList tcloud) cleaned
  .ok (cleaned.take closed2d.length, cleaned.drop closed2d.length, normals)

/-- Accumulated state across bundles. -/
structure BState where
  closedContours : List (List V3)
  openContours : List (List V3)
  normals : List PN

/-- The bundle loop of `compute` (lines 538-724): each attempted bundle
pushes its diagnostic image *before* the stage result is checked
(line 547); a stage failure aborts the loop. -/
def bundlePhase (cfg : Config) (ext : Ext) :
    List Bundle → BState → List ℕ × Except String BState
  | [], st => ([], .ok st)
  | b :: rest, st =>
    match b.cvResult with
    | .error e => ([b.cvImage], .error e)
    | .ok contours =>
      match processBundle cfg ext b contours with
      | .error e => ([b.cvImage], .error e)
      | .ok (cl, op, nr) =>
        let (imgs, r) := bundlePhase cfg ext rest
          { closedContours := st.closedContours ++ cl,
            openContours := st.openContours ++ op,
            normals := st.normals ++ nr }
        (b.cvImage :: imgs, r)

/-- The cross-bundle tail of `compute` (lines 726-749): combine open
curves, simplify by minimum length, and filter by minimum point count.
The failure result of `combineIntoClosedRegions` is ignored by `compute`
(line 729), exactly as in the source. -/
def computeFinalCurves (cfg : Config) (st : BState) :
    List (List V3) × List (List V3) :=
  let (_, closedNew, openNew) := combineIntoClosedRegions
    cfg.pcl_cfg.closed_curve_max_dist cfg.pcl_cfg.max_merge_dist st.openContours
  let closedAll := simplifyByMinimunLength cfg.pcl_cfg.simplification_min_dist
    (st.closedContours ++ closedNew)
  let openAll := simplifyByMinimunLength cfg.pcl_cfg.simplification_min_dist openNew
  (closedAll.filter (fun c => ¬ c.length < cfg.pcl_cfg.min_num_points),
    openAll.filter (fun c => ¬ c.length < cfg.pcl_cfg.min_num_points))

/-- The output record of `compute` (embeds `RegionResults`): diagnostic
image tags, open-region pose sequences, closed-region pose sequences. -/
structure RegionResults where
  images : List ℕ
  open_regions_poses : List (List PoseSpec)
  closed_regions_poses : List (List PoseSpec)
deriving DecidableEq, Repr

/-- Embeds `RegionDetector::compute` (lines 529-766) end to end: the
bundle loop, the cross-bundle assembly, pose computation (whose failure
flag is ignored, line 752-753), and the final
`return !regions.closed_regions_poses.empty()`. -/
def compute (cfg : Config) (ext : Ext) (input : List Bundle) : Bool × RegionResults :=
  match bundlePhase cfg ext input ⟨[], [], []⟩ with
  | (imgs, .error _) => (false, ⟨imgs, [], []⟩)
  | (imgs, .ok st) =>
    let (closedAll, openAll) := computeFinalCurves cfg st
    let openPoses := (computePoses st.normals openAll).2
    let closedPoses := (computePoses st.normals closedAll).2
    (!closedPoses.isEmpty, ⟨imgs, openPoses, closedPoses⟩)

/-- The final closed and open curve lists of a `compute` run (the curves
whose vertices become the output pose positions), empty when the bundle
phase fails. -/
def finalCurves (cfg : Config) (ext : Ext) (input : List Bundle) :
    List (List V3) × List (List V3) :=
  match bundlePhase cfg ext input ⟨[], [], []⟩ with
  | (_, .error _) => ([], [])
  | (_, .ok st) => computeFinalCurves cfg st

/-! ## Real-valued pose frame (`toRotationMatrix`, lines 73-82, and the
orientation block of `computePoses`, lines 1110-1118).  The Eigen
arithmetic is over floats; the embedding uses exact reals, with the
rational pose data cast in. -/

/-- A vector of `Eigen::Vector3d`. -/
structure RV3 where
  x : ℝ
  y : ℝ
  z : ℝ

/-- Cast of a rational point into the real frame computation. -/
def V3.toR (v : V3) : RV3 := ⟨(v.x : ℝ), (v.y : ℝ), (v.z : ℝ)⟩

def RV3.sub (a b : RV3) : RV3 := ⟨a.x - b.x, a.y - b.y, a.z - b.z⟩

def RV3.smul (c : ℝ) (v : RV3) : RV3 := ⟨c * v.x, c * v.y, c * v.z⟩

def RV3.dot (a b : RV3) : ℝ := a.x * b.x + a.y * b.y + a.z * b.z

/-- `Eigen`'s cross product. -/
def RV3.cross (a b : RV3) : RV3 :=
  ⟨a.y * b.z - a.z * b.y, a.z * b.x - a.x * b.z, a.x * b.y - a.y * b.x⟩

def RV3.sqNorm (v : RV3) : ℝ := RV3.dot v v

/-- `Eigen::Vector3d::normalized()`: division by the Euclidean norm (for
the zero vector this yields zero, a case excluded by the hypotheses of
every theorem below). -/
noncomputable def RV3.normalized (v : RV3) : RV3 :=
  RV3.smul (Real.sqrt (RV3.sqNorm v))⁻¹ v

/-- A 3×3 matrix given by its columns; `toRotationMatrix` (lines 73-82)
assembles its rows from the column vectors' components, so the arguments
are exactly the columns. -/
structure M3 where
  c0 : RV3
  c1 : RV3
  c2 : RV3

def toRotationMatrix (vx vy vz : RV3) : M3 := ⟨vx, vy, vz⟩

/-- The rotation block of the pose built for one `PoseSpec` (lines
1110-1118): `x_dir = dir * (p2 - p1).normalized()`,
`z_dir = normal.normalized()`, `y_dir = z_dir.cross(x_dir).normalized()`,
`z_dir = x_dir.cross(y_dir).normalized()`. -/
noncomputable def poseRotation (s : PoseSpec) : M3 :=
  let xd := RV3.smul ((s.dir : ℚ) : ℝ)
    (RV3.normalized (RV3.sub (V3.toR s.target) (V3.toR s.origin)))
  let z0 := RV3.normalized (V3.toR s.nrm)
  let yd := RV3.normalized (RV3.cross z0 xd)
  let zd := RV3.normalized (RV3.cross xd yd)
  toRotationMatrix xd yd zd

/-- Squared Frobenius norm of `RᵀR − I` for a column matrix:
`(RᵀR)ᵢⱼ = cᵢ·cⱼ`. -/
def frobRtRdiffSq (M : M3) : ℝ :=
  (RV3.dot M.c0 M.c0 - 1)^2 + (RV3.dot M.c1 M.c0)^2 + (RV3.dot M.c2 M.c0)^2
    + (RV3.dot M.c0 M.c1)^2 + (RV3.dot M.c1 M.c1 - 1)^2 + (RV3.dot M.c2 M.c1)^2
    + (RV3.dot M.c0 M.c2)^2 + (RV3.dot M.c1 M.c2)^2 + (RV3.dot M.c2 M.c2 - 1)^2

/-- Determinant of a column matrix: the scalar triple product. -/
def det3 (M : M3) : ℝ := RV3.dot M.c0 (RV3.cross M.c1 M.c2)

/-- Rational-side dot product, used to state the nondegeneracy hypotheses
decidably. -/
def V3.dot (a b : V3) : ℚ := a.x * b.x + a.y * b.y + a.z * b.z

/-- Rational-side cross product. -/
def V3.cross (a b : V3) : V3 :=
  ⟨a.y * b.z - a.z * b.y, a.z * b.x - a.x * b.z, a.x * b.y - a.y * b.x⟩

/-! ## Concrete test fixtures used by the counterexamples and witnesses.
The external primitives are instantiated with admissible behaviours:
points far enough apart sit in distinct voxels, so the voxel grid acts as
the identity (after NaN removal for the 3D variant), and the PCA normal of
a flat `z = 0` plane with the viewpoint above is `(0,0,1)`. -/

def extId : Ext :=
  { downsample2d := fun _ c => c, hull := fun _ c => c, sor := fun c => c,
    downsample3d := fun _ l => l.filterMap id, normalAt := fun _ _ => ⟨0, 0, 1⟩ }

def pcl2dA : Pcl2DCfg :=
  { downsampling_radius := 0, split_dist := 100, closed_curve_max_dist := 1/2,
    simplification_min_points := 10, simplification_alpha := 1 }

def normalEstA : NormalEstCfg :=
  { downsampling_radius := 1, search_radius := 1, kdtree_epsilon := 0 }

def pclA : PclCfg :=
  { max_merge_dist := 1/10, closed_curve_max_dist := 1/2,
    simplification_min_dist := 1/2, min_num_points := 3,
    stat_removal_enable := false, normal_est := normalEstA }

/-- Configuration of the open-curve run: the three-pixel contour stays an
open curve whose lifted endpoints are 1e-9 apart. -/
def cfgA : Config := { pcl_2d_cfg := pcl2dA, pcl_cfg := pclA }

/-- Flat organized cloud whose pixel `(2,0)` lies only 1e-9 away from
pixel `(1,0)` in 3D. -/
def cloudA : OrgCloud :=
  { w := 3, h := 2,
    data := fun x y =>
      if y = 0 then
        if x = 0 then some ⟨0, 0, 0⟩
        else if x = 1 then some ⟨1, 0, 0⟩
        else if x = 2 then some ⟨1 + 1/1000000000, 0, 0⟩
        else none
      else if y = 1 then some ⟨(x : ℚ), 50, 0⟩ else none }

def bundleA : Bundle :=
  { cvResult := .ok [[(0, 0), (1, 0), (2, 0)]], cvImage := 7, cloud := cloudA,
    transform := fun v => v }

def pcl2dB : Pcl2DCfg :=
  { downsampling_radius := 0, split_dist := 100, closed_curve_max_dist := 3/2,
    simplification_min_points := 10, simplification_alpha := 1 }

def pclB : PclCfg :=
  { max_merge_dist := 1/10, closed_curve_max_dist := 1/2,
    simplification_min_dist := 1/10, min_num_points := 3,
    stat_removal_enable := false, normal_est := normalEstA }

/-- Configuration of the closed-curve run: the four-pixel square is
classified closed in 2D. -/
def cfgB : Config := { pcl_2d_cfg := pcl2dB, pcl_cfg := pclB }

/-- Flat organized cloud with a NaN sentinel at pixel `(0,0)` — the first
and last vertex of the closed 2D square. -/
def cloudB : OrgCloud :=
  { w := 2, h := 2,
    data := fun x y =>
      if x = 0 ∧ y = 0 then none
      else if x = 1 ∧ y = 0 then some ⟨1, 0, 0⟩
      else if x = 1 ∧ y = 1 then some ⟨1, 1, 0⟩
      else if x = 0 ∧ y = 1 then some ⟨0, 1, 0⟩
      else none }

def bundleB : Bundle :=
  { cvResult := .ok [[(0, 0), (1, 0), (1, 1), (0, 1)]], cvImage := 3,
    cloud := cloudB, transform := fun v => v }

/-- A bundle whose OpenCV stage fails ("invalid dilation size"). -/
def bundleFail : Bundle :=
  { cvResult := .error "invalid dilation size", cvImage := 9, cloud := cloudB,
    transform := fun v => v }

/-- The loop invariant of claim C4: the first vertex of a curve equals its
last vertex (`curve.front() == curve.back()` in the C++ assertion, stated
on `Option` so that it also covers the empty curve). -/
def headLast {α : Type} (c : List α) : Prop := c.head? = c.getLast?

/-- A NaN-free variant of the closed-square cloud: every pixel carries a
point, the four square pixels carry the unit square. -/
def cPoint (x y : ℕ) : V3 :=
  if x = 0 ∧ y = 0 then ⟨0, 0, 0⟩
  else if x = 1 ∧ y = 0 then ⟨1, 0, 0⟩
  else if x = 1 ∧ y = 1 then ⟨1, 1, 0⟩
  else if x = 0 ∧ y = 1 then ⟨0, 1, 0⟩
  else ⟨(x : ℚ), (y : ℚ), 0⟩

def cloudC : OrgCloud := { w := 2, h := 2, data := fun x y => some (cPoint x y) }

/-- The closed-square bundle over the NaN-free cloud. -/
def bundleC : Bundle :=
  { cvResult := .ok [[(0, 0), (1, 0), (1, 1), (0, 1)]], cvImage := 4,
    cloud := cloudC, transform := fun v => v }

/-! ## Lemmas and claim theorems -/

lemma sqDist_nonneg (a b : V3) : 0 ≤ sqDist a b := by
  have hx := mul_self_nonneg ((a.sub b).x)
  have hy := mul_self_nonneg ((a.sub b).y)
  have hz := mul_self_nonneg ((a.sub b).z)
  unfold sqDist V3.sqNorm
  linarith

/-- Faithfulness of the squared comparison: `sqnLt d t` holds exactly when
the real norm `√d` is `< t`, as computed by the C++ code. -/
lemma sqnLt_iff_sqrt_lt (d t : ℚ) (hd : 0 ≤ d) :
    sqnLt d t ↔ Real.sqrt (d : ℝ) < (t : ℝ) := by
  unfold sqnLt
  constructor
  · rintro ⟨ht, hlt⟩
    rcases eq_or_lt_of_le ht with h | h
    · exfalso
      have : (0:ℚ) ≤ d := hd
      nlinarith
    · rw [show ((t:ℝ)) = Real.sqrt (t*t : ℚ) by
        push_cast
        rw [Real.sqrt_mul_self (by exact_mod_cast le_of_lt h)]]
      apply Real.sqrt_lt_sqrt (by exact_mod_cast hd)
      exact_mod_cast hlt
  · intro h
    have hts : (0:ℝ) ≤ Real.sqrt (d:ℝ) := Real.sqrt_nonneg _
    have ht : (0:ℝ) < (t:ℝ) := lt_of_le_of_lt hts h
    refine ⟨by exact_mod_cast le_of_lt ht, ?_⟩
    have h2 : (d:ℝ) < (t:ℝ)^2 := (Real.sqrt_lt' ht).mp h
    have h3 : (d:ℝ) < (t:ℝ) * (t:ℝ) := by nlinarith
    exact_mod_cast h3

/-- Faithfulness of the squared comparison: `sqnGt d t` holds exactly when
the real norm `√d` is `> t`, as computed by the C++ code. -/
lemma sqnGt_iff_sqrt_gt (d t : ℚ) :
    sqnGt d t ↔ (t : ℝ) < Real.sqrt (d : ℝ) := by
  unfold sqnGt
  constructor
  · rintro (h | h)
    · exact lt_of_lt_of_le (by exact_mod_cast h) (Real.sqrt_nonneg _)
    · have ht : (0:ℚ) ≤ t ∨ t < 0 := le_or_lt 0 t
      rcases ht with ht | ht
      · calc (t:ℝ) = Real.sqrt ((t*t : ℚ)) := by
              push_cast
              rw [Real.sqrt_mul_self (by exact_mod_cast ht)]
          _ < Real.sqrt (d:ℝ) := by
              apply Real.sqrt_lt_sqrt (by positivity)
              exact_mod_cast h
      · exact lt_of_lt_of_le (by exact_mod_cast ht) (Real.sqrt_nonneg _)
  · intro h
    rcases lt_or_le t 0 with ht | ht
    · exact Or.inl ht
    · right
      have h2 : Real.sqrt (t*t : ℚ) < Real.sqrt (d:ℝ) := by
        push_cast
        rwa [Real.sqrt_mul_self (by exact_mod_cast ht)]
      have := (Real.sqrt_lt_sqrt_iff (by positivity)).mp h2
      exact_mod_cast this

lemma abs_le_chebDist_left (p q : Pix) : |q.1 - p.1| ≤ chebDist p q :=
  le_max_left _ _

lemma abs_le_chebDist_right (p q : Pix) : |q.2 - p.2| ≤ chebDist p q :=
  le_max_right _ _

/-- One interpolation run: for a benign pair the emitted points form an
8-connected chain starting next to `p` and ending exactly at `q`. -/
lemma densifyPair_chain (p q : Pix) (hg : goodPair p q) :
    List.Chain' cheb1 (p :: densifyPair p q) ∧
      (densifyPair p q).getLast? = some q := by
  unfold densifyPair
  by_cases hd : chebDist p q ≤ 1
  · simp only [hd, if_true]
    refine ⟨?_, rfl⟩
    exact List.chain'_pair.mpr hd
  · simp only [hd, if_false]
    push_neg at hd
    have hd2 : (2:ℤ) ≤ chebDist p q := hd
    set d : ℤ := chebDist p q with hdef
    have hdvd : d ∣ (q.1 - p.1) ∧ d ∣ (q.2 - p.2) := by
      rcases hg with h | h
      · omega
      · exact h
    have hdpos : (0:ℤ) < d := by omega
    -- the two integer steps
    set hx : ℤ := Int.tdiv (q.1 - p.1) d with hxdef
    set hy : ℤ := Int.tdiv (q.2 - p.2) d with hydef
    have hxexact : d * hx = q.1 - p.1 := by
      obtain ⟨k, hk⟩ := hdvd.1
      rw [hxdef, hk, Int.mul_tdiv_cancel_left _ (by omega)]
    have hyexact : d * hy = q.2 - p.2 := by
      obtain ⟨k, hk⟩ := hdvd.2
      rw [hydef, hk, Int.mul_tdiv_cancel_left _ (by omega)]
    have hxabs : |hx| ≤ 1 := by
      have h1 : |q.1 - p.1| ≤ d := abs_le_chebDist_left p q
      have h2 : |d * hx| = |d| * |hx| := abs_mul _ _
      rw [hxexact] at h2
      have : |d| = d := abs_of_pos hdpos
      nlinarith [abs_nonneg hx]
    have hyabs : |hy| ≤ 1 := by
      have h1 : |q.2 - p.2| ≤ d := abs_le_chebDist_right p q
      have h2 : |d * hy| = |d| * |hy| := abs_mul _ _
      rw [hyexact] at h2
      have : |d| = d := abs_of_pos hdpos
      nlinarith [abs_nonneg hy]
    -- the emitted run as a single map over `range`
    have hn : (d + 1).toNat = d.toNat + 1 := by omega
    have hzip : List.zip (linspaceI p.1 q.1 ((d+1).toNat)) (linspaceI p.2 q.2 ((d+1).toNat))
        = (List.range ((d+1).toNat)).map
            (fun (k : ℕ) => ((p.1 + (k:ℤ) * hx, p.2 + (k:ℤ) * hy) : Pix)) := by
      unfold linspaceI
      rw [List.zip_map']
      apply List.map_congr_left
      intro a _
      have : ((d+1).toNat : ℤ) - 1 = d := by omega
      rw [this, ← hxdef, ← hydef]
    rw [hzip]
    constructor
    · -- the chain property
      rw [List.chain'_cons']
      constructor
      · intro y hy'
        rw [hn, List.range_succ_eq_map] at hy'
        simp at hy'
        rcases hy' with ⟨rfl, rfl⟩
        unfold cheb1 chebDist
        simp
      · rw [List.chain'_map, hn]
        rw [List.chain'_range_succ]
        intro m hm
        unfold cheb1 chebDist
        have e1 : (p.1 + ((m+1:ℕ)) * hx) - (p.1 + (m:ℕ) * hx) = hx := by
          push_cast; ring
        have e2 : (p.2 + ((m+1:ℕ)) * hy) - (p.2 + (m:ℕ) * hy) = hy := by
          push_cast; ring
        simp only [e1, e2]
        exact max_le hxabs hyabs
    · -- the run ends exactly at `q`
      rw [hn, List.range_succ, List.map_append]
      rw [List.getLast?_append_of_ne_nil _ (by simp)]
      simp only [List.map_cons, List.map_nil, List.getLast?_singleton]
      have hcast : ((d.toNat : ℤ)) = d := by omega
      have : p.1 + (d.toNat : ℤ) * hx = q.1 := by rw [hcast]; omega
      have h2 : p.2 + (d.toNat : ℤ) * hy = q.2 := by rw [hcast]; omega
      rw [this, h2]

lemma chebDist_nonneg (p q : Pix) : 0 ≤ chebDist p q :=
  le_trans (abs_nonneg (q.1 - p.1)) (le_max_left _ _)

lemma densifyPair_ne_nil (p q : Pix) : densifyPair p q ≠ [] := by
  unfold densifyPair
  by_cases hd : chebDist p q ≤ 1
  · simp [hd]
  · simp only [hd, if_false]
    push_neg at hd
    have h0 : 0 ≤ chebDist p q := chebDist_nonneg p q
    have : ((chebDist p q + 1).toNat) = (chebDist p q).toNat + 1 := by omega
    unfold linspaceI
    rw [this]
    simp [List.range_succ_eq_map]

lemma densifyGo_ne_nil (q r : Pix) (rs : List Pix) : densifyGo q (r :: rs) ≠ [] := by
  unfold densifyGo
  simp [densifyPair_ne_nil]

/-- Walking the contour: benign consecutive pairs give an 8-connected
densified polyline whose last vertex is the contour's last vertex. -/
lemma densifyGo_chain : ∀ (l : List Pix) (p : Pix), List.Chain' goodPair (p :: l) →
    List.Chain' cheb1 (p :: densifyGo p l) ∧
      (p :: densifyGo p l).getLast? = (p :: l).getLast? := by
  intro l
  induction l with
  | nil => intro p _; exact ⟨List.chain'_singleton p, rfl⟩
  | cons q rest ih =>
    intro p hch
    have hpq : goodPair p q := (List.chain'_cons.mp hch).1
    have hrest : List.Chain' goodPair (q :: rest) := (List.chain'_cons.mp hch).2
    obtain ⟨hchA, hlastA⟩ := densifyPair_chain p q hpq
    obtain ⟨hchG, hlastG⟩ := ih q hrest
    have hAne : densifyPair p q ≠ [] := densifyPair_ne_nil p q
    have hshape : p :: densifyGo p (q :: rest)
        = (p :: densifyPair p q) ++ densifyGo q rest := by
      simp [densifyGo]
    have hlastPA : (p :: densifyPair p q).getLast? = some q := by
      cases hA : densifyPair p q with
      | nil => exact absurd hA hAne
      | cons a as =>
        rw [List.getLast?_cons_cons, ← hA, hlastA]
    constructor
    · rw [hshape, List.chain'_append]
      refine ⟨hchA, ?_, ?_⟩
      · exact hchG.tail
      · intro x hx y hy'
        rw [hlastPA] at hx
        have hx' : x = q := (by simpa using hx : q = x).symm
        subst hx'
        exact (List.chain'_cons'.mp hchG).1 y hy'
    · rw [hshape]
      cases rest with
      | nil =>
        show ((p :: densifyPair p q) ++ densifyGo q []).getLast? = _
        have : densifyGo q [] = ([] : List Pix) := rfl
        rw [this, List.append_nil, hlastPA]
        simp
      | cons r rs =>
        have hGne : densifyGo q (r :: rs) ≠ [] := densifyGo_ne_nil q r rs
        rw [List.getLast?_append_of_ne_nil _ hGne]
        have h1 : (q :: densifyGo q (r :: rs)).getLast? = (densifyGo q (r :: rs)).getLast? := by
          cases hG : densifyGo q (r :: rs) with
          | nil => exact absurd hG hGne
          | cons a as => rw [List.getLast?_cons_cons, ← hG]
        have h2 : (p :: q :: r :: rs).getLast? = (q :: r :: rs).getLast? := by
          rw [List.getLast?_cons_cons]
        rw [← h1, hlastG, h2]

/-- Claim C6 counterexample: for the input contour `[(0,0), (5,3), (5,4)]`
the densified polyline is **not** 8-connected: the integer division inside
`linspace<int>` makes the first interpolation run end at `(5,0)` instead of
`(5,3)`, and the next emitted point `(5,4)` is at Chebyshev distance 4. -/
theorem densify_not_8connected_cex :
    ¬ List.Chain' cheb1 (densify [((0:ℤ), (0:ℤ)), (5, 3), (5, 4)]) := by
  intro h
  rw [show densify [((0:ℤ), (0:ℤ)), (5, 3), (5, 4)]
      = [((0:ℤ), (0:ℤ)), (0, 0), (1, 0), (2, 0), (3, 0), (4, 0), (5, 0), (5, 4)]
    from by decide] at h
  simp only [List.chain'_cons, List.chain'_singleton, and_true] at h
  exact absurd h.2.2.2.2.2.2 (by decide)

/-- Claim C6 (amended): after densification every pair of consecutive points
of a densified contour is at Chebyshev distance at most 1 **provided** every
consecutive input pair is either already 8-connected or has both coordinate
deltas divisible by their Chebyshev distance (in particular axis-aligned or
45-degree segments, the shapes produced by OpenCV contour chains). -/
theorem densify_chain_of_goodPairs (contour : List Pix)
    (h : List.Chain' goodPair contour) :
    List.Chain' cheb1 (densify contour) := by
  cases contour with
  | nil => exact List.chain'_nil
  | cons p rest => exact (densifyGo_chain rest p h).1

/-- Witness for `densify_chain_of_goodPairs` at the concrete contour
`[(0,0), (5,5), (6,5)]`. -/
theorem densify_chain_of_goodPairs_witness :
    List.Chain' goodPair [((0:ℤ), (0:ℤ)), (5, 5), (6, 5)] ∧
      List.Chain' cheb1 (densify [((0:ℤ), (0:ℤ)), (5, 5), (6, 5)]) :=
  have hg : List.Chain' goodPair [((0:ℤ), (0:ℤ)), (5, 5), (6, 5)] := by
    simp only [List.chain'_cons, List.chain'_singleton, and_true]
    exact ⟨by decide, by decide⟩
  ⟨hg, densify_chain_of_goodPairs _ hg⟩

/-- Claim C7 counterexample: densifying the contour `[(0,0), (0,10)]` does
**not** produce the 11 points `(0,0) … (0,10)` each once: the front vertex
is pushed once at line 558 and again by the interpolation run, so the
output is neither that list nor a permutation of it. -/
theorem densify_two_vertex_cex :
    densify [((0:ℤ), (0:ℤ)), (0, 10)] ≠
        [((0:ℤ), (0:ℤ)), (0, 1), (0, 2), (0, 3), (0, 4), (0, 5), (0, 6),
          (0, 7), (0, 8), (0, 9), (0, 10)] ∧
      ¬ (densify [((0:ℤ), (0:ℤ)), (0, 10)]).Perm
          [((0:ℤ), (0:ℤ)), (0, 1), (0, 2), (0, 3), (0, 4), (0, 5), (0, 6),
            (0, 7), (0, 8), (0, 9), (0, 10)] := by
  constructor
  · decide
  · decide

/-- Claim C7 (amended): densifying the two-vertex contour `[(0,0), (0,10)]`
yields exactly 12 points: `(0,0)` twice (once from the initial push of the
front vertex, once as the first linspace element) followed by
`(0,1) … (0,10)` once each. -/
theorem densify_two_vertex_eq :
    densify [((0:ℤ), (0:ℤ)), (0, 10)] =
      [((0:ℤ), (0:ℤ)), (0, 0), (0, 1), (0, 2), (0, 3), (0, 4), (0, 5),
        (0, 6), (0, 7), (0, 8), (0, 9), (0, 10)] := by decide

lemma nearestInSubset_mem (cloud : List V3) (q : V3) :
    ∀ (idxs : List ℕ) (j : ℕ), nearestInSubset cloud idxs q = some j → j ∈ idxs := by
  intro idxs
  induction idxs with
  | nil => intro j h; simp [nearestInSubset] at h
  | cons i rest ih =>
    intro j h
    rw [nearestInSubset] at h
    rcases hrec : nearestInSubset cloud rest q with _ | k
    · rw [hrec] at h
      simp at h
      simp [h]
    · rw [hrec] at h
      by_cases hlt : sqDist (cloud.getD k V3.zero) q < sqDist (cloud.getD i V3.zero) q
      · simp only [hlt, if_true] at h
        have : j = k := by simpa using h.symm
        subst this
        exact List.mem_cons_of_mem _ (ih _ hrec)
      · simp only [hlt, if_false] at h
        have : j = i := by simpa using h.symm
        simp [this]

lemma nearestInSubset_isSome (cloud : List V3) (q : V3) :
    ∀ (idxs : List ℕ), idxs ≠ [] → (nearestInSubset cloud idxs q).isSome := by
  intro idxs
  induction idxs with
  | nil => intro h; exact absurd rfl h
  | cons i rest _ =>
    intro _
    rw [nearestInSubset]
    rcases hrec : nearestInSubset cloud rest q with _ | k
    · rfl
    · dsimp only
      by_cases hlt : sqDist (cloud.getD k V3.zero) q < sqDist (cloud.getD i V3.zero) q
      · rw [if_pos hlt]
        rfl
      · rw [if_neg hlt]
        rfl

/-- Effect of `seqAppend` on the sequenced indices, up to multiset
equality: the found index `j` joins the previously sequenced indices (and
the pending search index on the first iteration). -/
lemma seqAppend_seqIdx_coe (cloud : List V3) (st : SeqState) (unseq2 : List ℕ) (j : ℕ) :
    ((seqAppend cloud st unseq2 j).seqIdx : Multiset ℕ)
      = ↑(if st.seqIdx = [] then [st.searchIdx] else st.seqIdx) + ↑([j] : List ℕ) := by
  unfold seqAppend
  dsimp only
  rw [Multiset.coe_add]
  apply Multiset.coe_eq_coe.mpr
  apply List.Perm.append_right
  split <;> split <;>
    first
      | exact List.reverse_perm _
      | exact List.Perm.refl _

lemma seqAppend_unseq (cloud : List V3) (st : SeqState) (unseq2 : List ℕ) (j : ℕ) :
    (seqAppend cloud st unseq2 j).unseq = unseq2 := rfl

lemma seqAppend_searchIdx (cloud : List V3) (st : SeqState) (unseq2 : List ℕ) (j : ℕ) :
    (seqAppend cloud st unseq2 j).searchIdx = j := rfl

lemma seqAppend_seqIdx_ne_nil (cloud : List V3) (st : SeqState) (unseq2 : List ℕ) (j : ℕ) :
    (seqAppend cloud st unseq2 j).seqIdx ≠ [] := by
  unfold seqAppend
  dsimp only
  simp

/-- `seqAppend` preserves the loop invariant. -/
lemma seqAppend_inv (cloud : List V3) (st : SeqState) (j : ℕ)
    (hinv : SeqInv cloud st)
    (hjmem : j ∈ st.unseq.erase st.searchIdx)
    (hjseq : j ∉ (if st.seqIdx = [] then [st.searchIdx] else st.seqIdx)) :
    SeqInv cloud (seqAppend cloud st (st.unseq.erase st.searchIdx) j) := by
  have hsear : st.searchIdx ∉ st.unseq.erase st.searchIdx :=
    hinv.nodupUn.not_mem_erase
  unfold seqAppend
  set B := if st.seqIdx = [] then [st.searchIdx] else st.seqIdx with hB
  set P := if st.seqIdx = [] then [st.searchPt] else st.seqPts with hP
  dsimp only
  have base_pts : P = B.map (getP cloud) := by
    rw [hB, hP]
    split
    · simp [hinv.spt]
    · exact hinv.pts
  have base_nodup : B.Nodup := by
    rw [hB]
    split
    · simp
    · exact hinv.nodupSeq
  have base_dis : ∀ i ∈ B, i ∉ st.unseq.erase st.searchIdx := by
    intro i hi hiu
    rw [hB] at hi
    by_cases h : st.seqIdx = []
    · rw [if_pos h] at hi
      have : i = st.searchIdx := by simpa using hi
      rw [this] at hiu
      exact hsear hiu
    · rw [if_neg h] at hi
      have := hinv.inter i hi (List.mem_of_mem_erase hiu)
      rw [this] at hiu
      exact hsear hiu
  constructor
  · -- pts
    dsimp only
    rw [base_pts]
    split <;> simp [getP]
  · -- spt
    rfl
  · -- nodupSeq
    dsimp only
    have hnder : ∀ (L : List ℕ), L.Nodup → j ∉ L → (L ++ [j]).Nodup := by
      intro L h1 h2
      simp only [List.nodup_append, List.nodup_singleton]
      refine ⟨h1, by simp, ?_⟩
      intro a ha hb
      have hab : a = j := by simpa using hb
      rw [hab] at ha
      exact h2 ha
    split
    · exact hnder _ (List.nodup_reverse.mpr base_nodup) (by simpa using hjseq)
    · exact hnder _ base_nodup hjseq
  · -- nodupUn
    exact hinv.nodupUn.erase _
  · -- smem
    exact hjmem
  · -- inter
    intro i hi hiu
    rcases List.mem_append.mp hi with hi2 | hi2
    · exfalso
      have hi3 : i ∈ B := by
        by_cases hrev : sqDist (cloud.getD (B.headD 0) V3.zero) (cloud.getD j V3.zero)
            < sqDist st.searchPt (cloud.getD j V3.zero)
        · rw [if_pos hrev] at hi2
          simpa using hi2
        · rw [if_neg hrev] at hi2
          exact hi2
      exact base_dis i hi3 hiu
    · simpa using hi2

/-- Core bookkeeping of the sequencing loop: with enough fuel (the C++
iteration cap always is), the final sequenced index list consists exactly of
the current sequenced indices (plus the pending search index on the first
iteration) together with all remaining unsequenced indices; and the
sequenced points stay the image of the sequenced indices.  In particular
the embedded `repeated point` warning branch is never taken. -/
lemma seqLoop_perm (cloud : List V3) : ∀ (fuel : ℕ) (st : SeqState),
    SeqInv cloud st → st.unseq.length ≤ fuel →
    (st.seqIdx = [] → st.unseq.erase st.searchIdx ≠ []) →
    (seqLoop cloud fuel st).seqPts = (seqLoop cloud fuel st).seqIdx.map (getP cloud) ∧
      ((seqLoop cloud fuel st).seqIdx : Multiset ℕ) =
        (↑(if st.seqIdx = [] then [st.searchIdx] else st.seqIdx) : Multiset ℕ)
          + ↑(st.unseq.erase st.searchIdx) := by
  intro fuel
  induction fuel with
  | zero =>
    intro st hinv hfuel _
    exfalso
    have hu : st.unseq = [] := List.length_eq_zero.mp (Nat.le_zero.mp hfuel)
    have hm := hinv.smem
    rw [hu] at hm
    exact absurd hm (List.not_mem_nil _)
  | succ f ih =>
    intro st hinv hfuel hside
    have hsear : st.searchIdx ∉ st.unseq.erase st.searchIdx :=
      hinv.nodupUn.not_mem_erase
    rw [seqLoop]
    by_cases hemp : st.unseq.erase st.searchIdx = []
    · -- the unsequenced set became empty: break
      rw [if_pos hemp]
      have hne : st.seqIdx ≠ [] := by
        intro h0
        exact absurd hemp (hside h0)
      refine ⟨hinv.pts, ?_⟩
      rw [hemp]
      simp [hne]
    · -- a nearest neighbour exists and is appended
      rw [if_neg hemp]
      rcases hj : nearestInSubset cloud (st.unseq.erase st.searchIdx) st.searchPt
          with _ | j
      · exfalso
        have := nearestInSubset_isSome cloud st.searchPt _ hemp
        rw [hj] at this
        exact Bool.noConfusion this
      have hjmem : j ∈ st.unseq.erase st.searchIdx :=
        nearestInSubset_mem cloud st.searchPt _ j hj
      have hjun : j ∈ st.unseq := List.mem_of_mem_erase hjmem
      have hjne : j ≠ st.searchIdx := by
        intro h
        rw [h] at hjmem
        exact hsear hjmem
      -- the repeated-point `continue` branch is dead
      have hjseq : j ∉ (if st.seqIdx = [] then [st.searchIdx] else st.seqIdx) := by
        intro hmem
        by_cases h0 : st.seqIdx = []
        · rw [if_pos h0] at hmem
          exact hjne (by simpa using hmem)
        · rw [if_neg h0] at hmem
          exact hjne (hinv.inter j hmem hjun)
      dsimp only
      rw [if_neg hjseq]
      -- recurse through `seqAppend`
      have hflen : (st.unseq.erase st.searchIdx).length ≤ f := by
        have := List.length_erase_of_mem hinv.smem
        omega
      obtain ⟨ha, hb⟩ := ih (seqAppend cloud st (st.unseq.erase st.searchIdx) j)
        (seqAppend_inv cloud st j hinv hjmem hjseq)
        (by rw [seqAppend_unseq]; exact hflen)
        (fun h => absurd h (seqAppend_seqIdx_ne_nil cloud st _ j))
      refine ⟨ha, ?_⟩
      rw [hb, if_neg (seqAppend_seqIdx_ne_nil cloud st _ j),
        seqAppend_unseq, seqAppend_searchIdx,
        seqAppend_seqIdx_coe cloud st (st.unseq.erase st.searchIdx) j]
      have hperm : (st.unseq.erase st.searchIdx).Perm
          (j :: (st.unseq.erase st.searchIdx).erase j) :=
        List.perm_cons_erase hjmem
      rw [add_assoc]
      congr 1
      rw [Multiset.coe_eq_coe.mpr hperm]
      rfl

/-- Reading the whole cloud back through its index range is the identity. -/
lemma map_getP_range (cloud : List V3) :
    (List.range cloud.length).map (getP cloud) = cloud := by
  apply List.ext_getElem
  · simp
  · intro i h1 h2
    simp [getP, List.getD_eq_getElem?_getD, List.getElem?_eq_getElem h2]

/-- The iteration counter grows by at most the available fuel: the C++
`iter_count <= max_iters` guard bounds the number of loop-body runs. -/
lemma seqLoop_iters_le (cloud : List V3) :
    ∀ (fuel : ℕ) (st : SeqState), (seqLoop cloud fuel st).iters ≤ st.iters + fuel := by
  intro fuel
  induction fuel with
  | zero => intro st; rw [seqLoop]; omega
  | succ f ih =>
    intro st
    rw [seqLoop]
    by_cases hemp : st.unseq.erase st.searchIdx = []
    · rw [if_pos hemp]
      dsimp only
      omega
    · rw [if_neg hemp]
      rcases nearestInSubset cloud (st.unseq.erase st.searchIdx) st.searchPt with _ | j
      · dsimp only
        omega
      · dsimp only
        have hit : ∀ (u : List ℕ) (j2 : ℕ),
            (seqAppend cloud st u j2).iters = st.iters + 1 := fun _ _ => rfl
        split <;> split <;> refine le_trans (ih _) ?_
        · dsimp only
          omega
        · rw [hit]
          omega
        · dsimp only
          omega
        · rw [hit]
          omega

/-- Claim C10: `RegionDetector::sequence` terminates on every finite input
(its embedding is a total function) and its main loop executes at most
`|S| + 1` iterations, the cap enforced by the `iter_count <= max_iters`
guard together with the early exits. -/
theorem sequence_steps_le (cloud : List V3) :
    sequenceSteps cloud ≤ cloud.length + 1 := by
  have h := seqLoop_iters_le cloud (cloud.length + 1) (seqInit cloud)
  simpa [sequenceSteps, seqRun, seqInit] using h

/-- Claim C9 counterexample: on the singleton input the first loop
iteration empties the unsequenced set and breaks before any point is
pushed, so `sequence` returns an empty path instead of a path containing
the single input point. -/
theorem sequence_singleton_cex :
    RegionDetect.sequence [V3.zero] = [] ∧
      ¬ (RegionDetect.sequence [V3.zero]).Perm [V3.zero] := by
  refine ⟨by decide, ?_⟩
  intro h
  have := h.length_eq
  rw [show RegionDetect.sequence [V3.zero] = [] from by decide] at this
  simp at this

/-- Claim C9 (amended): for every input set of at least two points,
`sequence` returns a single path containing every input point exactly once
(the output is a permutation of the input; each iteration drops exactly the
current search index from the unsequenced set).  A singleton input instead
yields the empty path. -/
theorem sequence_perm_of_two_le (cloud : List V3) (h2 : 2 ≤ cloud.length) :
    (RegionDetect.sequence cloud).Perm cloud := by
  have h0mem : 0 ∈ List.range cloud.length := by
    rw [List.mem_range]
    omega
  have hinv : SeqInv cloud (seqInit cloud) := by
    constructor
    · rfl
    · rfl
    · exact List.nodup_nil
    · exact List.nodup_range _
    · exact h0mem
    · intro i hi
      exact absurd hi (List.not_mem_nil _)
  have hside : (seqInit cloud).seqIdx = [] →
      (seqInit cloud).unseq.erase (seqInit cloud).searchIdx ≠ [] := by
    intro _
    show (List.range cloud.length).erase 0 ≠ []
    have hlen := List.length_erase_of_mem h0mem
    intro hnil
    rw [hnil] at hlen
    simp at hlen
    omega
  obtain ⟨ha, hb⟩ := seqLoop_perm cloud (cloud.length + 1) (seqInit cloud) hinv
    (by show (List.range cloud.length).length ≤ cloud.length + 1; simp) hside
  have hif : (if (seqInit cloud).seqIdx = []
      then [(seqInit cloud).searchIdx] else (seqInit cloud).seqIdx) = [0] := rfl
  rw [hif] at hb
  have hperm1 : (seqLoop cloud (cloud.length + 1) (seqInit cloud)).seqIdx.Perm
      ([0] ++ (List.range cloud.length).erase 0) := by
    apply Multiset.coe_eq_coe.mp
    rw [hb, ← Multiset.coe_add]
    rfl
  have hperm0 : (List.range cloud.length).Perm
      (0 :: (List.range cloud.length).erase 0) :=
    List.perm_cons_erase h0mem
  have hfin : RegionDetect.sequence cloud
      = (seqLoop cloud (cloud.length + 1) (seqInit cloud)).seqIdx.map (getP cloud) := ha
  rw [hfin]
  calc (seqLoop cloud (cloud.length + 1) (seqInit cloud)).seqIdx.map (getP cloud)
      |>.Perm (([0] ++ (List.range cloud.length).erase 0).map (getP cloud)) :=
        hperm1.map _
    _ = (0 :: (List.range cloud.length).erase 0).map (getP cloud) := rfl
    _ |>.Perm ((List.range cloud.length).map (getP cloud)) := (hperm0.map _).symm
    _ = cloud := map_getP_range cloud

/-- Witness for `sequence_perm_of_two_le` on a concrete three-point cloud. -/
theorem sequence_perm_of_two_le_witness :
    2 ≤ ([⟨0,0,0⟩, ⟨2,0,0⟩, ⟨1,0,0⟩] : List V3).length ∧
      (RegionDetect.sequence [⟨0,0,0⟩, ⟨2,0,0⟩, ⟨1,0,0⟩]).Perm
        [⟨0,0,0⟩, ⟨2,0,0⟩, ⟨1,0,0⟩] :=
  ⟨by decide, sequence_perm_of_two_le _ (by decide)⟩

/-! ## Claims C1, C2 (public contract of `compute`) and C5 (merge threshold) -/

/-- Claim C1: for every input list of bundles (and every admissible
behaviour of the third-party primitives), `compute` returns success if and
only if at least one closed region — a non-empty list of closed-region
pose sequences — was produced in the output `RegionResults`.  Early
per-bundle failures return `false` with no poses produced, and the final
return value is literally the non-emptiness of the closed pose list. -/
theorem compute_success_iff_closed (cfg : Config) (ext : Ext) (input : List Bundle) :
    (compute cfg ext input).1 = true ↔
      (compute cfg ext input).2.closed_regions_poses ≠ [] := by
  unfold compute
  rcases hbp : bundlePhase cfg ext input ⟨[], [], []⟩ with ⟨imgs, r⟩
  rcases r with e | st
  · simp
  · rcases hfc : computeFinalCurves cfg st with ⟨cl, op⟩
    dsimp only
    rw [Bool.not_eq_true']
    rw [Bool.eq_false_iff]
    rw [ne_eq, List.isEmpty_iff]

/-- Claim C2 counterexample: the run of `compute` on `bundleA` with
`cfgA` fails (no closed region is produced), yet the returned
`RegionResults` HAS been mutated: the diagnostic image of the bundle was
appended (line 547 pushes it before the failure is known) and the open
region's poses are present (lines 751-753 run before the failure return).
This falsifies `on every failing run the RegionResult is left with no
poses and no diagnostic images added`. -/
theorem compute_failure_mutates_cex :
    (compute cfgA extId [bundleA]).1 = false ∧
      (compute cfgA extId [bundleA]).2.images = [7] ∧
      (compute cfgA extId [bundleA]).2.open_regions_poses ≠ [] := by
  refine ⟨by decide, by decide, by decide⟩

/-- Images pushed by an aborted bundle phase: one per attempted bundle,
including the failing one. -/
lemma bundlePhase_error_images (cfg : Config) (ext : Ext) :
    ∀ (input : List Bundle) (st : BState) (e : String) (imgs : List ℕ),
      bundlePhase cfg ext input st = (imgs, .error e) →
      ∃ k, 0 < k ∧ k ≤ input.length ∧
        imgs = (input.take k).map (fun b => b.cvImage) := by
  intro input
  induction input with
  | nil =>
    intro st e imgs h
    rw [bundlePhase] at h
    cases h
  | cons b rest ih =>
    intro st e imgs h
    rw [bundlePhase] at h
    rcases hcv : b.cvResult with ecv | contours
    · rw [hcv] at h
      dsimp only at h
      obtain ⟨h1, _⟩ := Prod.mk.injEq .. ▸ h
      refine ⟨1, by omega, by simp, ?_⟩
      simpa using h1.symm
    · rw [hcv] at h
      dsimp only at h
      rcases hpb : processBundle cfg ext b contours with epb | res
      · rw [hpb] at h
        dsimp only at h
        obtain ⟨h1, _⟩ := Prod.mk.injEq .. ▸ h
        refine ⟨1, by omega, by simp, ?_⟩
        simpa using h1.symm
      · rw [hpb] at h
        dsimp only at h
        rcases hrec : bundlePhase cfg ext rest
            { closedContours := st.closedContours ++ res.1,
              openContours := st.openContours ++ res.2.1,
              normals := st.normals ++ res.2.2 } with ⟨imgs2, r2⟩
        rw [hrec] at h
        dsimp only at h
        obtain ⟨h1, h2⟩ := Prod.mk.injEq .. ▸ h
        rcases r2 with e2 | st2
        · obtain ⟨k, hk1, hk2, hk3⟩ := ih _ e2 imgs2 (by rw [hrec, h2])
          refine ⟨k + 1, by omega, by simp; omega, ?_⟩
          rw [← h1]
          simp [hk3]
        · exact absurd h2 (by simp)

/-- Claim C2 (amended): whenever a per-bundle pipeline stage fails,
`compute` aborts and returns failure with no poses in the output — but
the output is not left unmutated: it carries the diagnostic images of all
attempted bundles, including the failing one.  (And a failure of the
cross-bundle stage `combineIntoClosedRegions` does not abort at all, as
`compute_failure_mutates_cex` shows.) -/
theorem compute_bundle_failure (cfg : Config) (ext : Ext) (input : List Bundle)
    (e : String) (imgs : List ℕ)
    (h : bundlePhase cfg ext input ⟨[], [], []⟩ = (imgs, .error e)) :
    compute cfg ext input = (false, ⟨imgs, [], []⟩) ∧
      ∃ k, 0 < k ∧ k ≤ input.length ∧
        imgs = (input.take k).map (fun b => b.cvImage) := by
  constructor
  · unfold compute
    rw [h]
  · exact bundlePhase_error_images cfg ext input _ e imgs h

/-- Witness for `compute_bundle_failure` on the failing bundle fixture. -/
theorem compute_bundle_failure_witness :
    bundlePhase cfgB extId [bundleFail] ⟨[], [], []⟩
        = ([9], .error "invalid dilation size") ∧
      compute cfgB extId [bundleFail] = (false, ⟨[9], [], []⟩) := by
  have h : bundlePhase cfgB extId [bundleFail] ⟨[], [], []⟩
      = ([9], .error "invalid dilation size") := by
    rw [bundlePhase]
    rfl
  exact ⟨h, (compute_bundle_failure cfgB extId [bundleFail] _ _ h).1⟩

/-- Claim C5 counterexample: two curves whose closest endpoints are at
distance exactly `max_merge_dist = 1` ARE merged — `mergeCurves` only
refuses when the minimum is strictly greater than the threshold
(`if (*min_pos > max_merge_dist) return false`). -/
theorem mergeCurves_at_threshold_cex :
    (mergeCurves 1 [⟨0,0,0⟩, ⟨1,0,0⟩] [⟨2,0,0⟩, ⟨3,0,0⟩]).isSome = true ∧
      (mergeCurves 1 [⟨0,0,0⟩, ⟨1,0,0⟩] [⟨2,0,0⟩, ⟨3,0,0⟩]).getD []
        = [⟨0,0,0⟩, ⟨1,0,0⟩, ⟨2,0,0⟩, ⟨3,0,0⟩] ∧
      sqDist (⟨1,0,0⟩ : V3) ⟨2,0,0⟩ = 1 * 1 := by
  refine ⟨by decide, by decide, by decide⟩

lemma min4_le (d0 d1 d2 d3 : ℚ) :
    (min4 d0 d1 d2 d3).2 ≤ d0 ∧ (min4 d0 d1 d2 d3).2 ≤ d1 ∧
      (min4 d0 d1 d2 d3).2 ≤ d2 ∧ (min4 d0 d1 d2 d3).2 ≤ d3 := by
  unfold min4
  dsimp only
  split_ifs <;> dsimp only <;>
    refine ⟨by linarith, by linarith, by linarith, by linarith⟩

lemma min4_mem (d0 d1 d2 d3 : ℚ) :
    (min4 d0 d1 d2 d3).2 = d0 ∨ (min4 d0 d1 d2 d3).2 = d1 ∨
      (min4 d0 d1 d2 d3).2 = d2 ∨ (min4 d0 d1 d2 d3).2 = d3 := by
  unfold min4
  dsimp only
  split_ifs <;> dsimp only <;> tauto

/-- Claim C5 (amended): merging happens exactly when at least one of the
four endpoint-to-endpoint distances is `≤ max_merge_dist` — the
threshold comparison is non-strict, so curves at exactly `max_merge_dist`
ARE merged. -/
theorem mergeCurves_isSome_iff (t : ℚ) (c1 c2 : List V3) (ht : 0 ≤ t) :
    (mergeCurves t c1 c2).isSome = true ↔
      (sqDist (c1.headD V3.zero) (c2.headD V3.zero) ≤ t * t ∨
        sqDist (c1.headD V3.zero) (c2.getLastD V3.zero) ≤ t * t ∨
        sqDist (c1.getLastD V3.zero) (c2.headD V3.zero) ≤ t * t ∨
        sqDist (c1.getLastD V3.zero) (c2.getLastD V3.zero) ≤ t * t) := by
  unfold mergeCurves
  dsimp only
  set d0 := sqDist (c1.headD V3.zero) (c2.headD V3.zero) with hd0
  set d1 := sqDist (c1.headD V3.zero) (c2.getLastD V3.zero) with hd1
  set d2 := sqDist (c1.getLastD V3.zero) (c2.headD V3.zero) with hd2
  set d3 := sqDist (c1.getLastD V3.zero) (c2.getLastD V3.zero) with hd3
  obtain ⟨l0, l1, l2, l3⟩ := min4_le d0 d1 d2 d3
  have hmem := min4_mem d0 d1 d2 d3
  by_cases hgt : sqnGt (min4 d0 d1 d2 d3).2 t
  · rw [if_pos hgt]
    unfold sqnGt at hgt
    rcases hgt with hgt | hgt
    · exact absurd hgt (not_lt.mpr ht)
    · constructor
      · intro h
        exact absurd h (by simp)
      · intro h
        exfalso
        rcases h with h | h | h | h <;> linarith
  · rw [if_neg hgt]
    unfold sqnGt at hgt
    push_neg at hgt
    constructor
    · intro _
      rcases hmem with hm | hm | hm | hm
      · exact Or.inl (by linarith [hgt.2])
      · exact Or.inr (Or.inl (by linarith [hgt.2]))
      · exact Or.inr (Or.inr (Or.inl (by linarith [hgt.2])))
      · exact Or.inr (Or.inr (Or.inr (by linarith [hgt.2])))
    · intro _
      rfl

/-- Witness for `mergeCurves_isSome_iff` at the threshold fixture. -/
theorem mergeCurves_isSome_iff_witness :
    (0:ℚ) ≤ 1 ∧
      (mergeCurves 1 [⟨0,0,0⟩, ⟨1,0,0⟩] [⟨2,0,0⟩, ⟨3,0,0⟩]).isSome = true :=
  ⟨by norm_num,
    (mergeCurves_isSome_iff 1 [⟨0,0,0⟩, ⟨1,0,0⟩] [⟨2,0,0⟩, ⟨3,0,0⟩]
      (by norm_num)).mpr (Or.inr (Or.inr (Or.inl (by decide))))⟩

/-! ## Claim C8: consecutive-vertex separation in the final output -/

/-- The interior walk of `simplifyByMinimunLength` keeps the accumulator
non-empty with unchanged head, and every consecutive pair it creates is
more than `min_length` apart. -/
lemma simplifyFold_spec (minLen : ℚ) :
    ∀ (interior acc : List V3), acc ≠ [] →
      List.Chain' (fun a b => sqnGt (sqDist a b) minLen) acc →
      (interior.foldl
          (fun acc p =>
            if sqnGt (sqDist (acc.getLastD V3.zero) p) minLen then acc ++ [p] else acc)
          acc) ≠ [] ∧
        (interior.foldl
          (fun acc p =>
            if sqnGt (sqDist (acc.getLastD V3.zero) p) minLen then acc ++ [p] else acc)
          acc).head? = acc.head? ∧
        List.Chain' (fun a b => sqnGt (sqDist a b) minLen)
          (interior.foldl
            (fun acc p =>
              if sqnGt (sqDist (acc.getLastD V3.zero) p) minLen then acc ++ [p] else acc)
            acc) := by
  intro interior
  induction interior with
  | nil => intro acc hne hch; exact ⟨hne, rfl, hch⟩
  | cons p rest ih =>
    intro acc hne hch
    rw [List.foldl_cons]
    by_cases hk : sqnGt (sqDist (acc.getLastD V3.zero) p) minLen
    · rw [if_pos hk]
      have hne2 : acc ++ [p] ≠ [] := by simp
      have hh : (acc ++ [p]).head? = acc.head? := by
        rw [List.head?_append_of_ne_nil _ hne]
      have hch2 : List.Chain' (fun a b => sqnGt (sqDist a b) minLen) (acc ++ [p]) := by
        rw [List.chain'_append]
        refine ⟨hch, List.chain'_singleton p, ?_⟩
        intro x hx y hy
        have hyP : y = p := (by simpa using hy : p = y).symm
        have hxL : x = acc.getLastD V3.zero := by
          have h2 := List.getLastD_eq_getLast? V3.zero acc
          rw [hx] at h2
          simpa using h2.symm
        rw [hyP, hxL]
        exact hk
      obtain ⟨a1, a2, a3⟩ := ih (acc ++ [p]) hne2 hch2
      exact ⟨a1, by rw [a2, hh], a3⟩
    · rw [if_neg hk]
      exact ih acc hne hch

/-- Structure of one simplified segment: its head is the input's front, its
last vertex is the input's back, and all consecutive pairs except possibly
the final one are more than `min_length` apart. -/
lemma simplifyCurve_spec (minLen : ℚ) (c : List V3) :
    (simplifyCurve minLen c).head? = some (c.headD V3.zero) ∧
      (simplifyCurve minLen c).getLast? = some (c.getLastD V3.zero) ∧
      List.Chain' (fun a b => sqnGt (sqDist a b) minLen)
        (simplifyCurve minLen c).dropLast := by
  unfold simplifyCurve
  dsimp only
  obtain ⟨hne, hh, hch⟩ := simplifyFold_spec minLen ((c.drop 1).take (c.length - 2))
    [c.headD V3.zero] (by simp) (List.chain'_singleton _)
  refine ⟨?_, ?_, ?_⟩
  · rw [List.head?_append_of_ne_nil _ hne, hh]
    rfl
  · rw [List.getLast?_append_of_ne_nil _ (by simp)]
    rfl
  · rw [List.dropLast_concat]
    exact hch

/-- Every curve of the final output is a `simplifyCurve` image. -/
lemma finalCurves_mem_simplify (cfg : Config) (ext : Ext) (input : List Bundle)
    (c : List V3)
    (h : c ∈ (finalCurves cfg ext input).1 ∨ c ∈ (finalCurves cfg ext input).2) :
    ∃ c0, c = simplifyCurve cfg.pcl_cfg.simplification_min_dist c0 := by
  unfold finalCurves at h
  rcases hbp : bundlePhase cfg ext input ⟨[], [], []⟩ with ⟨imgs, r⟩
  rw [hbp] at h
  rcases r with e | st
  · dsimp only at h
    rcases h with h | h <;> exact absurd h (List.not_mem_nil c)
  · dsimp only at h
    unfold computeFinalCurves at h
    rcases hcb : combineIntoClosedRegions cfg.pcl_cfg.closed_curve_max_dist
        cfg.pcl_cfg.max_merge_dist st.openContours with ⟨bres, closedNew, openNew⟩
    rw [hcb] at h
    dsimp only at h
    rcases h with h | h
    · have h2 := List.mem_of_mem_filter h
      unfold simplifyByMinimunLength at h2
      obtain ⟨c0, _, hc0⟩ := List.mem_map.mp h2
      exact ⟨c0, hc0.symm⟩
    · have h2 := List.mem_of_mem_filter h
      unfold simplifyByMinimunLength at h2
      obtain ⟨c0, _, hc0⟩ := List.mem_map.mp h2
      exact ⟨c0, hc0.symm⟩

/-- Claim C8 counterexample: the final output of the `bundleA` run
contains the open curve `[(0,0,0), (1,0,0), (1+1e-9,0,0)]` whose final
consecutive pair is only `1e-9 < ε = 1e-8` apart — and that pair is not
the (first,last) pair of a closed loop, since the curve is open.  The
back vertex is appended unconditionally by `simplifyByMinimunLength`
(line 787), with no distance check against the previously kept vertex. -/
theorem finalCurves_min_dist_cex :
    (finalCurves cfgA extId [bundleA]).2
        = [[⟨0,0,0⟩, ⟨1,0,0⟩, ⟨1 + 1/1000000000, 0, 0⟩]] ∧
      sqnLt (sqDist (⟨1,0,0⟩ : V3) ⟨1 + 1/1000000000, 0, 0⟩) minPointDist := by
  exact ⟨by decide, by decide⟩

/-- Claim C8 (amended): in every curve of the final output (closed or
open), every consecutive vertex pair **except possibly the final pair of
the curve** is strictly more than `simplification_min_dist` apart (hence at
least `ε` whenever `simplification_min_dist ≥ 1e-8`); the final pair
carries no guarantee because `simplifyByMinimunLength` appends the last
vertex unconditionally. -/
theorem finalCurves_consecutive_gt (cfg : Config) (ext : Ext) (input : List Bundle)
    (c : List V3)
    (h : c ∈ (finalCurves cfg ext input).1 ∨ c ∈ (finalCurves cfg ext input).2) :
    List.Chain' (fun a b => sqnGt (sqDist a b) cfg.pcl_cfg.simplification_min_dist)
      c.dropLast := by
  obtain ⟨c0, hc0⟩ := finalCurves_mem_simplify cfg ext input c h
  rw [hc0]
  exact (simplifyCurve_spec cfg.pcl_cfg.simplification_min_dist c0).2.2

/-- Witness for `finalCurves_consecutive_gt` on the `bundleA` run. -/
theorem finalCurves_consecutive_gt_witness :
    ([⟨0,0,0⟩, ⟨1,0,0⟩, ⟨1 + 1/1000000000, 0, 0⟩] : List V3)
        ∈ (finalCurves cfgA extId [bundleA]).2 ∧
      List.Chain' (fun a b => sqnGt (sqDist a b) cfgA.pcl_cfg.simplification_min_dist)
        ([⟨0,0,0⟩, ⟨1,0,0⟩, ⟨1 + 1/1000000000, 0, 0⟩] : List V3).dropLast :=
  ⟨by decide,
    finalCurves_consecutive_gt cfgA extId [bundleA] _ (Or.inr (by decide))⟩

/-! ## Claim C4: closed curves end where they start -/

/-- Closing a curve makes its first and last vertices equal. -/
lemma headLast_closeCurve (c : List V3) : headLast (closeCurve c) := by
  unfold headLast closeCurve
  rw [List.getLast?_append_of_ne_nil _ (by simp)]
  cases c with
  | nil => rfl
  | cons a t => rfl

/-- `headLast` is preserved by mapping. -/
lemma headLast_map {α β : Type} (f : α → β) (c : List α) (h : headLast c) :
    headLast (c.map f) := by
  unfold headLast at h ⊢
  rw [List.head?_map, List.getLast?_map, h]

/-- Every member of the right list of a `Forall₂` has a related member on
the left. -/
lemma forall2_exists_left {α β : Type} {R : α → β → Prop} :
    ∀ {l1 : List α} {l2 : List β}, List.Forall₂ R l1 l2 → ∀ b ∈ l2, ∃ a ∈ l1, R a b := by
  intro l1 l2 h
  induction h with
  | nil => intro b hb; exact absurd hb (List.not_mem_nil b)
  | cons hr _ ih =>
    intro b hb
    rcases List.mem_cons.mp hb with h1 | h1
    · exact ⟨_, List.mem_cons_self _ _, h1 ▸ hr⟩
    · obtain ⟨a, ha, har⟩ := ih b h1
      exact ⟨a, List.mem_cons_of_mem _ ha, har⟩

/-- Every curve of the closed list of `findClosedCurves` is a `closeCurve`
image (line 320 pushes the front before the curve is stored). -/
lemma findClosedCurves_closed_mem (maxDist : ℚ) (curves : List (List V3)) (c : List V3)
    (h : c ∈ (findClosedCurves maxDist curves).1) : ∃ c0, c = closeCurve c0 := by
  have main : ∀ (cs : List (List V3)) (acc : List (List V3) × List (List V3)),
      (∀ x ∈ acc.1, ∃ c0, x = closeCurve c0) →
      ∀ x ∈ (cs.foldl
        (fun acc c =>
          if sqnLt (sqDist (c.headD V3.zero) (c.getLastD V3.zero)) maxDist then
            (acc.1 ++ [closeCurve c], acc.2)
          else
            (acc.1, acc.2 ++ [c])) acc).1,
        ∃ c0, x = closeCurve c0 := by
    intro cs
    induction cs with
    | nil => intro acc hacc x hx; exact hacc x hx
    | cons d rest ih =>
      intro acc hacc x hx
      rw [List.foldl_cons] at hx
      refine ih _ ?_ x hx
      by_cases hd : sqnLt (sqDist (d.headD V3.zero) (d.getLastD V3.zero)) maxDist
      · rw [if_pos hd]
        intro y hy
        rcases List.mem_append.mp hy with h1 | h1
        · exact hacc y h1
        · exact ⟨d, by simpa using h1⟩
      · rw [if_neg hd]
        exact hacc
  refine main curves ([], []) (fun x hx => absurd hx (List.not_mem_nil x)) c ?_
  unfold findClosedCurves at h
  exact h

/-- Every closed curve out of the 2D conditioning stage is a `closeCurve`
image: either it comes straight from `findClosedCurves` or the concave
hull's resequencing is closed again by hand (line 636). -/
lemma processContours2d_closed_mem (cfg : Config) (ext : Ext)
    (contours : List (List Pix)) (c : List V3)
    (h : c ∈ (processContours2d cfg ext contours).1) : ∃ c0, c = closeCurve c0 := by
  unfold processContours2d at h
  dsimp only at h
  rcases hfc : findClosedCurves cfg.pcl_2d_cfg.closed_curve_max_dist
      (((if 0 < cfg.pcl_2d_cfg.downsampling_radius
          then (contours.map densify).map (fun c => c.map pixToV3)
            |>.map (ext.downsample2d cfg.pcl_2d_cfg.downsampling_radius)
          else (contours.map densify).map (fun c => c.map pixToV3)).map
            RegionDetect.sequence).map
        (fun c => split c cfg.pcl_2d_cfg.split_dist) |>.flatten) with ⟨cl2, op2⟩
  rw [hfc] at h
  dsimp only at h
  obtain ⟨c0, hc0mem, hc0eq⟩ := List.mem_map.mp h
  by_cases hlen : c0.length < cfg.pcl_2d_cfg.simplification_min_points
  · rw [if_pos hlen] at hc0eq
    obtain ⟨cc, hcc⟩ := findClosedCurves_closed_mem _ _ c0 (by rw [hfc]; exact hc0mem)
    exact ⟨cc, hc0eq ▸ hcc⟩
  · rw [if_neg hlen] at hc0eq
    exact ⟨_, hc0eq.symm⟩

/-- Every curve of the closed list of `combineIntoClosedRegions` is a
`closeCurve` image (line 917 pushes the front before the curve is stored). -/
lemma combine_closed_mem (cm mm : ℚ) (contours : List (List V3)) (c : List V3)
    (h : c ∈ (combineIntoClosedRegions cm mm contours).2.1) : ∃ c0, c = closeCurve c0 := by
  unfold combineIntoClosedRegions at h
  dsimp only at h
  have main : ∀ (idxs : List ℕ) (st : CombineState),
      (∀ x ∈ st.closedC, ∃ c0, x = closeCurve c0) →
      ∀ x ∈ (idxs.foldl
        (fun (st : CombineState) i =>
          if i ∈ st.merged then st
          else
            let cand := (List.range contours.length).erase i
            let (cur, merged2) := mergeDoWhile mm contours i cand (contours.length + 1)
              (contours.getD i []) st.merged
            if sqnLt (sqDist (cur.headD V3.zero) (cur.getLastD V3.zero)) cm then
              { merged := merged2 ++ [i], closedC := st.closedC ++ [closeCurve cur],
                openC := st.openC }
            else
              { merged := merged2 ++ [i], closedC := st.closedC,
                openC := st.openC ++ [cur] }) st).closedC,
        ∃ c0, x = closeCurve c0 := by
    intro idxs
    induction idxs with
    | nil => intro st hst x hx; exact hst x hx
    | cons i rest ih =>
      intro st hst x hx
      rw [List.foldl_cons] at hx
      refine ih _ ?_ x hx
      by_cases hm : i ∈ st.merged
      · rw [if_pos hm]
        exact hst
      · rw [if_neg hm]
        dsimp only
        generalize mergeDoWhile mm contours i ((List.range contours.length).erase i)
            (contours.length + 1) (contours.getD i []) st.merged = md
        by_cases hcl : sqnLt (sqDist (md.1.headD V3.zero) (md.1.getLastD V3.zero)) cm
        · rw [if_pos hcl]
          intro y hy
          rcases List.mem_append.mp hy with h1 | h1
          · exact hst y h1
          · exact ⟨md.1, by simpa using h1⟩
        · rw [if_neg hcl]
          exact hst
  exact main _ ⟨[], [], []⟩ (fun x hx => absurd hx (List.not_mem_nil x)) c h

/-- A successful `extractOne` is exactly the pointwise cloud lookup. -/
lemma extractOne_ok_eq (cloud : OrgCloud) :
    ∀ (c : List Pix) (l : List (Option V3)), extractOne cloud c = .ok l →
      l = c.map (fun p => cloud.data p.1.toNat p.2.toNat) := by
  intro c
  induction c with
  | nil =>
    intro l h
    exact (Except.ok.inj h).symm
  | cons p rest ih =>
    intro l h
    simp only [extractOne] at h
    by_cases hb : (p.1 < 0 ∨ (cloud.w : ℤ) ≤ p.1 ∨ p.2 < 0 ∨ (cloud.h : ℤ) ≤ p.2)
    · rw [if_pos hb] at h
      exact absurd h (fun hh => Except.noConfusion hh)
    · rw [if_neg hb] at h
      rcases he : extractOne cloud rest with e | vs
      · rw [he] at h
        exact absurd h (fun hh => Except.noConfusion hh)
      · rw [he] at h
        have h2 := Except.ok.inj h
        rw [List.map_cons, ← ih vs he]
        exact h2.symm

/-- A successful `extractGo` is the pointwise `extractOne` of every
contour. -/
lemma extractGo_ok_forall2 (cloud : OrgCloud) :
    ∀ (cs : List (List Pix)) (ls : List (List (Option V3))),
      extractGo cloud cs = .ok ls →
      List.Forall₂ (fun c l => extractOne cloud c = .ok l) cs ls := by
  intro cs
  induction cs with
  | nil =>
    intro ls h
    rw [← Except.ok.inj h]
    exact List.Forall₂.nil
  | cons c rest ih =>
    intro ls h
    simp only [extractGo] at h
    by_cases hc : c = []
    · rw [if_pos hc] at h
      exact absurd h (fun hh => Except.noConfusion hh)
    · rw [if_neg hc] at h
      rcases he : extractOne cloud c with e | pts
      · rw [he] at h
        exact absurd h (fun hh => Except.noConfusion hh)
      · rw [he] at h
        rcases hg : extractGo cloud rest with e | more
        · rw [hg] at h
          exact absurd h (fun hh => Except.noConfusion hh)
        · rw [hg] at h
          rw [← Except.ok.inj h]
          exact List.Forall₂.cons he (ih more hg)

/-- A successful `extractContoursFromCloud` comes from a successful
`extractGo`. -/
lemma extractContours_ok (cloud : OrgCloud) (contours : List (List Pix))
    (ls : List (List (Option V3)))
    (h : extractContoursFromCloud cloud contours = .ok ls) :
    extractGo cloud contours = .ok ls := by
  unfold extractContoursFromCloud at h
  by_cases horg : cloud.h ≤ 1
  · rw [if_pos horg] at h
    exact absurd h (fun hh => Except.noConfusion hh)
  · rw [if_neg horg] at h
    rcases hg : extractGo cloud contours with e | res
    · rw [hg] at h
      exact absurd h (fun hh => Except.noConfusion hh)
    · rw [hg] at h
      have h2 : (if res = [] then (Except.error "" : Except String (List (List (Option V3))))
          else Except.ok res) = Except.ok ls := h
      by_cases hres : res = []
      · rw [if_pos hres] at h2
        exact absurd h2 (fun hh => Except.noConfusion hh)
      · rw [if_neg hres] at h2
        rw [Except.ok.inj h2]

/-- On a NaN-free cloud the lift-then-compact composition is a plain map. -/
lemma removeNaN_total (cloud : OrgCloud) (htot : ∀ x y, cloud.data x y ≠ none)
    (c : List Pix) :
    removeNaN (c.map (fun p => cloud.data p.1.toNat p.2.toNat))
      = c.map (fun p => (cloud.data p.1.toNat p.2.toNat).getD V3.zero) := by
  unfold removeNaN
  induction c with
  | nil => rfl
  | cons p rest ih =>
    rw [List.map_cons, List.map_cons, List.filterMap_cons]
    rcases hd : cloud.data p.1.toNat p.2.toNat with _ | v
    · exact absurd hd (htot _ _)
    · simp only [id, Option.getD_some]
      rw [ih]

/-- `headLast` survives one application of `simplifyCurve`: the simplified
curve starts at the input's front and ends at the input's back. -/
lemma headLast_simplify (minLen : ℚ) (c : List V3) (h : headLast c) :
    headLast (simplifyCurve minLen c) := by
  have hs := simplifyCurve_spec minLen c
  unfold headLast
  rw [hs.1, hs.2.1]
  unfold headLast at h
  cases c with
  | nil => rfl
  | cons a t =>
    rw [List.getLastD_eq_getLast?, ← h]
    rfl

/-- The closed prefix produced by `processBundle` consists of `headLast`
curves whenever statistical outlier removal is off and the bundle's cloud
has no NaN sentinel. -/
lemma processBundle_closed_headLast (cfg : Config) (ext : Ext) (b : Bundle)
    (contours : List (List Pix)) (res : List (List V3) × List (List V3) × List PN)
    (hstat : cfg.pcl_cfg.stat_removal_enable = false)
    (htot : ∀ x y, b.cloud.data x y ≠ none)
    (h : processBundle cfg ext b contours = .ok res) :
    ∀ c ∈ res.1, headLast c := by
  unfold processBundle at h
  rcases hpc : processContours2d cfg ext contours with ⟨cl2, op2⟩
  rw [hpc] at h
  dsimp only at h
  simp only [hstat, Bool.false_eq_true, if_false] at h
  rcases hex : extractContoursFromCloud
      ⟨b.cloud.w, b.cloud.h, fun x y => (b.cloud.data x y).map b.transform⟩
      ((cl2 ++ op2).map (fun c => c.map toPixel)) with e | ls
  · rw [hex] at h
    exact absurd h (fun hh => Except.noConfusion hh)
  · rw [hex] at h
    have h2 : (computeNormalsAll cfg ext
        (orgCloudToList ⟨b.cloud.w, b.cloud.h,
          fun x y => (b.cloud.data x y).map b.transform⟩)
        (ls.map (fun c => removeNaN c)) >>= fun normals =>
          Except.ok ((ls.map (fun c => removeNaN c)).take cl2.length,
            (ls.map (fun c => removeNaN c)).drop cl2.length, normals))
        = Except.ok res := h
    rcases hcn : computeNormalsAll cfg ext
        (orgCloudToList ⟨b.cloud.w, b.cloud.h,
          fun x y => (b.cloud.data x y).map b.transform⟩)
        (ls.map (fun c => removeNaN c)) with e | nr
    · rw [hcn] at h2
      exact absurd h2 (fun hh => Except.noConfusion hh)
    · rw [hcn] at h2
      have hres := Except.ok.inj h2
      rw [← hres]
      intro c hc
      dsimp only at hc
      rw [← List.map_take] at hc
      obtain ⟨l, hlmem, hleq⟩ := List.mem_map.mp hc
      have hf2 := extractGo_ok_forall2 _ _ _ (extractContours_ok _ _ _ hex)
      have hf2t := List.forall₂_take cl2.length hf2
      have htake : (((cl2 ++ op2).map (fun c => c.map toPixel)).take cl2.length)
          = cl2.map (fun c => c.map toPixel) := by
        rw [List.map_append]
        exact List.take_left' (by rw [List.length_map])
      rw [htake] at hf2t
      obtain ⟨cp, hcpmem, hcpR⟩ := forall2_exists_left hf2t l hlmem
      obtain ⟨c2, hc2mem, hc2eq⟩ := List.mem_map.mp hcpmem
      have hl := extractOne_ok_eq _ cp l hcpR
      have hhl2 : headLast c2 := by
        obtain ⟨c0, hc0⟩ := processContours2d_closed_mem cfg ext contours c2
          (by rw [hpc]; exact hc2mem)
        rw [hc0]
        exact headLast_closeCurve c0
      have htot2 : ∀ x y,
          (⟨b.cloud.w, b.cloud.h, fun x y => (b.cloud.data x y).map b.transform⟩
            : OrgCloud).data x y ≠ none := by
        intro x y hnone
        exact htot x y (Option.map_eq_none'.mp hnone)
      rw [← hleq, hl, ← hc2eq]
      rw [removeNaN_total ⟨b.cloud.w, b.cloud.h,
        fun x y => (b.cloud.data x y).map b.transform⟩ htot2 _]
      exact headLast_map _ _ (headLast_map _ _ hhl2)

/-- Across the whole bundle loop, the accumulated closed contours are
`headLast` curves (same hypotheses, plus the invariant for the initial
state). -/
lemma bundlePhase_closed_headLast (cfg : Config) (ext : Ext)
    (hstat : cfg.pcl_cfg.stat_removal_enable = false) :
    ∀ (input : List Bundle) (st : BState),
      (∀ c ∈ st.closedContours, headLast c) →
      (∀ b ∈ input, ∀ x y, b.cloud.data x y ≠ none) →
      ∀ (imgs : List ℕ) (stf : BState),
        bundlePhase cfg ext input st = (imgs, .ok stf) →
        ∀ c ∈ stf.closedContours, headLast c := by
  intro input
  induction input with
  | nil =>
    intro st hst _ imgs stf h
    injection h with h1 h2
    rw [← Except.ok.inj h2]
    exact hst
  | cons b rest ih =>
    intro st hst htot imgs stf h
    simp only [bundlePhase] at h
    rcases hcv : b.cvResult with e | contours
    · rw [hcv] at h
      injection h with h1 h2
      exact absurd h2 (fun hh => Except.noConfusion hh)
    · rw [hcv] at h
      dsimp only at h
      rcases hpb : processBundle cfg ext b contours with e | r3
      · rw [hpb] at h
        injection h with h1 h2
        exact absurd h2 (fun hh => Except.noConfusion hh)
      · rcases r3 with ⟨cl, op, nr⟩
        rw [hpb] at h
        dsimp only at h
        rcases hbp2 : bundlePhase cfg ext rest
            ⟨st.closedContours ++ cl, st.openContours ++ op, st.normals ++ nr⟩
            with ⟨imgs2, r2⟩
        rw [hbp2] at h
        dsimp only at h
        injection h with h1 h2
        refine ih ⟨st.closedContours ++ cl, st.openContours ++ op, st.normals ++ nr⟩
          ?_ (fun b2 hb2 => htot b2 (List.mem_cons_of_mem b hb2)) imgs2 stf ?_
        · intro c hc
          rcases List.mem_append.mp hc with hm | hm
          · exact hst c hm
          · exact processBundle_closed_headLast cfg ext b contours (cl, op, nr) hstat
              (htot b (List.mem_cons_self b rest)) hpb c hm
        · rw [hbp2, h2]

/-- Claim C4 counterexample: with the NaN sentinel at pixel `(0,0)` — the
front (and duplicated back) vertex of the closed 2D square — the final
closed output curve of the `bundleB` run is `[(1,0,0),(1,1,0),(0,1,0)]`,
whose first vertex differs from its last: the NaN compaction after the 3D
lift (line 700) removes the duplicated endpoints and no later stage
restores them.  This falsifies the claim for curves `in the final output
after simplification`. -/
theorem finalClosed_head_ne_last_cex :
    (finalCurves cfgB extId [bundleB]).1 = [[⟨1,0,0⟩, ⟨1,1,0⟩, ⟨0,1,0⟩]] ∧
      ¬ headLast ([⟨1,0,0⟩, ⟨1,1,0⟩, ⟨0,1,0⟩] : List V3) := by
  constructor
  · decide
  · intro h
    exact absurd (Option.some.inj h) (by decide)

/-- Claim C4 (amended): every curve classified as closed has its first
vertex duplicated as its last vertex — unconditionally at the 2D
classification (`findClosedCurves`), after concave-hull simplification
(the closed list of `processContours2d`), and after cross-bundle merging
(`combineIntoClosedRegions`); for the final output after simplification it
holds provided statistical outlier removal is disabled and the bundle
clouds carry no NaN sentinel, since the NaN compaction of the 3D lift can
delete the duplicated endpoints. -/
theorem closed_curves_head_eq_last (cfg : Config) (ext : Ext) (input : List Bundle)
    (hstat : cfg.pcl_cfg.stat_removal_enable = false)
    (htot : ∀ b ∈ input, ∀ x y, b.cloud.data x y ≠ none) :
    (∀ (maxDist : ℚ) (curves : List (List V3)) (c : List V3),
        c ∈ (findClosedCurves maxDist curves).1 → headLast c) ∧
    (∀ (contours : List (List Pix)) (c : List V3),
        c ∈ (processContours2d cfg ext contours).1 → headLast c) ∧
    (∀ (cm mm : ℚ) (contours : List (List V3)) (c : List V3),
        c ∈ (combineIntoClosedRegions cm mm contours).2.1 → headLast c) ∧
    (∀ c ∈ (finalCurves cfg ext input).1, headLast c) := by
  refine ⟨?_, ?_, ?_, ?_⟩
  · intro maxDist curves c hc
    obtain ⟨c0, hc0⟩ := findClosedCurves_closed_mem maxDist curves c hc
    rw [hc0]
    exact headLast_closeCurve c0
  · intro contours c hc
    obtain ⟨c0, hc0⟩ := processContours2d_closed_mem cfg ext contours c hc
    rw [hc0]
    exact headLast_closeCurve c0
  · intro cm mm contours c hc
    obtain ⟨c0, hc0⟩ := combine_closed_mem cm mm contours c hc
    rw [hc0]
    exact headLast_closeCurve c0
  · intro c hc
    unfold finalCurves at hc
    rcases hbp : bundlePhase cfg ext input ⟨[], [], []⟩ with ⟨imgs, r⟩
    rw [hbp] at hc
    rcases r with e | st
    · exact absurd hc (List.not_mem_nil c)
    · dsimp only at hc
      unfold computeFinalCurves at hc
      rcases hcb : combineIntoClosedRegions cfg.pcl_cfg.closed_curve_max_dist
          cfg.pcl_cfg.max_merge_dist st.openContours with ⟨bres, closedNew, openNew⟩
      rw [hcb] at hc
      dsimp only at hc
      have h2 := List.mem_of_mem_filter hc
      unfold simplifyByMinimunLength at h2
      obtain ⟨c0, hc0mem, hc0eq⟩ := List.mem_map.mp h2
      rw [← hc0eq]
      refine headLast_simplify _ c0 ?_
      rcases List.mem_append.mp hc0mem with h1 | h1
      · exact bundlePhase_closed_headLast cfg ext hstat input ⟨[], [], []⟩
          (fun x hx => absurd hx (List.not_mem_nil x)) htot imgs st hbp c0 h1
      · obtain ⟨cc, hcc⟩ := combine_closed_mem _ _ st.openContours c0
          (by rw [hcb]; exact h1)
        rw [hcc]
        exact headLast_closeCurve cc

/-- Witness for `closed_curves_head_eq_last` on the NaN-free closed-square
run: its final closed curve is the full loop with equal endpoints. -/
theorem closed_curves_head_eq_last_witness :
    (([⟨0,0,0⟩, ⟨1,0,0⟩, ⟨1,1,0⟩, ⟨0,1,0⟩, ⟨0,0,0⟩] : List V3)
        ∈ (finalCurves cfgB extId [bundleC]).1) ∧
      headLast ([⟨0,0,0⟩, ⟨1,0,0⟩, ⟨1,1,0⟩, ⟨0,1,0⟩, ⟨0,0,0⟩] : List V3) :=
  ⟨by decide,
    (closed_curves_head_eq_last cfgB extId [bundleC] rfl
      (by
        intro b hb x y
        rw [List.mem_singleton] at hb
        subst hb
        simp [bundleC, cloudC])).2.2.2
      _ (by decide)⟩

/-! ## Claim C3: orthonormality of the pose rotation frame -/

lemma RV3.dot_comm (a b : RV3) : RV3.dot a b = RV3.dot b a := by
  simp only [RV3.dot]
  ring

lemma RV3.sqNorm_nonneg (v : RV3) : 0 ≤ RV3.sqNorm v := by
  simp only [RV3.sqNorm, RV3.dot]
  nlinarith [mul_self_nonneg v.x, mul_self_nonneg v.y, mul_self_nonneg v.z]

lemma RV3.smul_smul (a b : ℝ) (v : RV3) :
    RV3.smul a (RV3.smul b v) = RV3.smul (a * b) v := by
  simp only [RV3.smul, RV3.mk.injEq]
  refine ⟨by ring, by ring, by ring⟩

lemma RV3.dot_smul_left (c : ℝ) (a b : RV3) :
    RV3.dot (RV3.smul c a) b = c * RV3.dot a b := by
  simp only [RV3.dot, RV3.smul]
  ring

lemma RV3.dot_smul_right (c : ℝ) (a b : RV3) :
    RV3.dot a (RV3.smul c b) = c * RV3.dot a b := by
  simp only [RV3.dot, RV3.smul]
  ring

lemma RV3.sqNorm_smul (c : ℝ) (v : RV3) :
    RV3.sqNorm (RV3.smul c v) = c * c * RV3.sqNorm v := by
  simp only [RV3.sqNorm, RV3.dot, RV3.smul]
  ring

lemma RV3.cross_smul_smul (a b : ℝ) (u v : RV3) :
    RV3.cross (RV3.smul a u) (RV3.smul b v) = RV3.smul (a * b) (RV3.cross u v) := by
  simp only [RV3.cross, RV3.smul, RV3.mk.injEq]
  refine ⟨by ring, by ring, by ring⟩

lemma RV3.dot_cross_left (a b : RV3) : RV3.dot a (RV3.cross a b) = 0 := by
  simp only [RV3.dot, RV3.cross]
  ring

lemma RV3.dot_cross_right (a b : RV3) : RV3.dot b (RV3.cross a b) = 0 := by
  simp only [RV3.dot, RV3.cross]
  ring

/-- Lagrange's identity for the cross product. -/
lemma RV3.sqNorm_cross (a b : RV3) :
    RV3.sqNorm (RV3.cross a b)
      = RV3.sqNorm a * RV3.sqNorm b - RV3.dot a b * RV3.dot a b := by
  simp only [RV3.sqNorm, RV3.dot, RV3.cross]
  ring

/-- The triple cross product `a × (b × a) = (a⋅a) b − (a⋅b) a`. -/
lemma RV3.cross_cross_self (a b : RV3) :
    RV3.cross a (RV3.cross b a)
      = RV3.sub (RV3.smul (RV3.dot a a) b) (RV3.smul (RV3.dot a b) a) := by
  simp only [RV3.cross, RV3.sub, RV3.smul, RV3.dot, RV3.mk.injEq]
  refine ⟨by ring, by ring, by ring⟩

lemma RV3.sub_smul_one_zero (v w : RV3) :
    RV3.sub (RV3.smul 1 v) (RV3.smul 0 w) = v := by
  cases v
  cases w
  simp only [RV3.smul, RV3.sub, RV3.mk.injEq]
  refine ⟨by ring, by ring, by ring⟩

lemma RV3.sqNorm_normalized (v : RV3) (h : RV3.sqNorm v ≠ 0) :
    RV3.sqNorm (RV3.normalized v) = 1 := by
  unfold RV3.normalized
  rw [RV3.sqNorm_smul]
  have h0 : 0 ≤ RV3.sqNorm v := RV3.sqNorm_nonneg v
  have hs : Real.sqrt (RV3.sqNorm v) * Real.sqrt (RV3.sqNorm v) = RV3.sqNorm v :=
    Real.mul_self_sqrt h0
  have hne : Real.sqrt (RV3.sqNorm v) ≠ 0 :=
    Real.sqrt_ne_zero'.mpr (lt_of_le_of_ne h0 (Ne.symm h))
  field_simp

/-- Normalization keeps orthogonality. -/
lemma RV3.dot_normalized_right (a v : RV3) (h : RV3.dot a v = 0) :
    RV3.dot a (RV3.normalized v) = 0 := by
  unfold RV3.normalized
  rw [RV3.dot_smul_right, h, mul_zero]

lemma RV3.normalized_of_unit (v : RV3) (h : RV3.sqNorm v = 1) :
    RV3.normalized v = v := by
  unfold RV3.normalized
  rw [h, Real.sqrt_one, inv_one]
  cases v
  simp only [RV3.smul, RV3.mk.injEq]
  refine ⟨by ring, by ring, by ring⟩

lemma toR_sub (a b : V3) : RV3.sub (V3.toR a) (V3.toR b) = V3.toR (V3.sub a b) := by
  simp only [RV3.sub, V3.toR, V3.sub, RV3.mk.injEq]
  refine ⟨by push_cast; ring, by push_cast; ring, by push_cast; ring⟩

lemma sqNormR_toR (v : V3) : RV3.sqNorm (V3.toR v) = ((V3.sqNorm v : ℚ) : ℝ) := by
  simp only [RV3.sqNorm, RV3.dot, V3.toR, V3.sqNorm]
  push_cast
  ring

lemma dotR_toR (a b : V3) : RV3.dot (V3.toR a) (V3.toR b) = ((V3.dot a b : ℚ) : ℝ) := by
  simp only [RV3.dot, V3.toR, V3.dot]
  push_cast
  ring

lemma crossR_toR (a b : V3) : RV3.cross (V3.toR a) (V3.toR b) = V3.toR (V3.cross a b) := by
  simp only [RV3.cross, V3.toR, V3.cross, RV3.mk.injEq]
  refine ⟨by push_cast; ring, by push_cast; ring, by push_cast; ring⟩

lemma V3.sqNorm_ne_zero (v : V3) (h : v ≠ V3.zero) : V3.sqNorm v ≠ 0 := by
  intro h0
  apply h
  cases v with
  | mk a b c =>
    simp only [V3.sqNorm] at h0
    have ha : a = 0 := by nlinarith [mul_self_nonneg a, mul_self_nonneg b, mul_self_nonneg c]
    have hb : b = 0 := by nlinarith [mul_self_nonneg a, mul_self_nonneg b, mul_self_nonneg c]
    have hc2 : c = 0 := by nlinarith [mul_self_nonneg a, mul_self_nonneg b, mul_self_nonneg c]
    rw [ha, hb, hc2]
    rfl

/-- The pure vector-algebra core of claim C3: for a nonzero tangent `t`, a
nonzero normal `n` not parallel to `t`, and a sign `d = ±1`, the frame
`x = d t̂`, `y = (n̂ × x)̂`, `z = (x × y)̂` is orthonormal and
right-handed, and `z = n̂` whenever `n ⊥ t`. -/
lemma frame_core (t n : RV3) (d : ℝ)
    (hd : d * d = 1) (ht : RV3.sqNorm t ≠ 0) (hn : RV3.sqNorm n ≠ 0)
    (hc : RV3.sqNorm (RV3.cross n t) ≠ 0) :
    ∀ xd yd zd : RV3,
      xd = RV3.smul d (RV3.normalized t) →
      yd = RV3.normalized (RV3.cross (RV3.normalized n) xd) →
      zd = RV3.normalized (RV3.cross xd yd) →
      (RV3.dot xd xd = 1 ∧ RV3.dot yd yd = 1 ∧ RV3.dot zd zd = 1 ∧
        RV3.dot xd yd = 0 ∧ RV3.dot xd zd = 0 ∧ RV3.dot yd zd = 0) ∧
      RV3.dot xd (RV3.cross yd zd) = 1 ∧
      (RV3.dot n t = 0 → zd = RV3.normalized n) := by
  intro xd yd zd hxd hyd hzd
  have htpos : 0 < RV3.sqNorm t := lt_of_le_of_ne (RV3.sqNorm_nonneg t) (Ne.symm ht)
  have hnpos : 0 < RV3.sqNorm n := lt_of_le_of_ne (RV3.sqNorm_nonneg n) (Ne.symm hn)
  have hd0 : d ≠ 0 := by
    intro h0
    rw [h0] at hd
    norm_num at hd
  have hxx : RV3.dot xd xd = 1 := by
    rw [hxd]
    show RV3.sqNorm (RV3.smul d (RV3.normalized t)) = 1
    rw [RV3.sqNorm_smul, RV3.sqNorm_normalized t ht, mul_one, hd]
  have hz0u : RV3.sqNorm (RV3.normalized n) = 1 := RV3.sqNorm_normalized n hn
  have hu : RV3.cross (RV3.normalized n) xd
      = RV3.smul ((Real.sqrt (RV3.sqNorm n))⁻¹ * (d * (Real.sqrt (RV3.sqNorm t))⁻¹))
        (RV3.cross n t) := by
    rw [hxd]
    unfold RV3.normalized
    rw [RV3.smul_smul, RV3.cross_smul_smul]
  have hk0 : (Real.sqrt (RV3.sqNorm n))⁻¹ * (d * (Real.sqrt (RV3.sqNorm t))⁻¹) ≠ 0 := by
    have h1 : Real.sqrt (RV3.sqNorm n) ≠ 0 := Real.sqrt_ne_zero'.mpr hnpos
    have h2 : Real.sqrt (RV3.sqNorm t) ≠ 0 := Real.sqrt_ne_zero'.mpr htpos
    exact mul_ne_zero (inv_ne_zero h1) (mul_ne_zero hd0 (inv_ne_zero h2))
  have husq : RV3.sqNorm (RV3.cross (RV3.normalized n) xd) ≠ 0 := by
    rw [hu, RV3.sqNorm_smul]
    exact mul_ne_zero (mul_ne_zero hk0 hk0) hc
  have hyy : RV3.dot yd yd = 1 := by
    rw [hyd]
    show RV3.sqNorm (RV3.normalized (RV3.cross (RV3.normalized n) xd)) = 1
    exact RV3.sqNorm_normalized _ husq
  have hxu : RV3.dot xd (RV3.cross (RV3.normalized n) xd) = 0 := RV3.dot_cross_right _ _
  have hxy : RV3.dot xd yd = 0 := by
    rw [hyd]
    exact RV3.dot_normalized_right _ _ hxu
  have hvsq : RV3.sqNorm (RV3.cross xd yd) = 1 := by
    rw [RV3.sqNorm_cross]
    have h1 : RV3.sqNorm xd = 1 := hxx
    have h2 : RV3.sqNorm yd = 1 := hyy
    rw [h1, h2, hxy]
    norm_num
  have hzd_eq : zd = RV3.cross xd yd := by
    rw [hzd]
    exact RV3.normalized_of_unit _ hvsq
  have hzz : RV3.dot zd zd = 1 := by
    show RV3.sqNorm zd = 1
    rw [hzd_eq]
    exact hvsq
  have hxz : RV3.dot xd zd = 0 := by
    rw [hzd_eq]
    exact RV3.dot_cross_left _ _
  have hyz : RV3.dot yd zd = 0 := by
    rw [hzd_eq]
    exact RV3.dot_cross_right _ _
  have hyx : RV3.dot yd xd = 0 := by
    rw [RV3.dot_comm]
    exact hxy
  have hdet : RV3.dot xd (RV3.cross yd zd) = 1 := by
    rw [hzd_eq, RV3.cross_cross_self, hyy, hyx, RV3.sub_smul_one_zero]
    exact hxx
  refine ⟨⟨hxx, hyy, hzz, hxy, hxz, hyz⟩, hdet, ?_⟩
  intro hnt
  have hz0x : RV3.dot (RV3.normalized n) xd = 0 := by
    rw [hxd]
    unfold RV3.normalized
    rw [RV3.dot_smul_left, RV3.dot_smul_right, RV3.dot_smul_right, hnt]
    ring
  have husq1 : RV3.sqNorm (RV3.cross (RV3.normalized n) xd) = 1 := by
    rw [RV3.sqNorm_cross, hz0u, hz0x]
    have h1 : RV3.sqNorm xd = 1 := hxx
    rw [h1]
    norm_num
  have hyd_eq : yd = RV3.cross (RV3.normalized n) xd := by
    rw [hyd]
    exact RV3.normalized_of_unit _ husq1
  have hxz0 : RV3.dot xd (RV3.normalized n) = 0 := by
    rw [RV3.dot_comm]
    exact hz0x
  rw [hzd_eq, hyd_eq, RV3.cross_cross_self, hxx, hxz0, RV3.sub_smul_one_zero]

/-- The direction sign of every emitted pose is `±1` (lines 1096-1107). -/
lemma mkSpecs_dir (curve nrms : List V3) (s : PoseSpec) (hs : s ∈ mkSpecs curve nrms) :
    s.dir = 1 ∨ s.dir = -1 := by
  unfold mkSpecs at hs
  obtain ⟨i, _, hi⟩ := List.mem_map.mp hs
  by_cases h : i + 1 ≥ curve.length
  · rw [if_pos h] at hi
    right
    rw [← hi]
  · rw [if_neg h] at hi
    left
    rw [← hi]

/-- Every emitted pose-spec list is the `mkSpecs` of a curve and its
looked-up normals. -/
lemma computePoses_mem (src : List PN) :
    ∀ (curves : List (List V3)) (cs : List PoseSpec),
      cs ∈ (computePoses src curves).2 →
      ∃ c nrms, lookupNormals src c = .ok nrms ∧ cs = mkSpecs c nrms := by
  intro curves
  induction curves with
  | nil =>
    intro cs h
    exact absurd h (List.not_mem_nil cs)
  | cons c rest ih =>
    intro cs h
    simp only [computePoses] at h
    rcases hl : lookupNormals src c with e | nrms
    · rw [hl] at h
      exact absurd h (List.not_mem_nil cs)
    · rw [hl] at h
      dsimp only at h
      rcases List.mem_cons.mp h with h1 | h1
      · exact ⟨c, nrms, hl, h1⟩
      · exact ih cs h1

/-- Claim C3 counterexample: on the two-point tangent `(1,0,0)` with
looked-up surface normal `(1,0,1)` — at 45° to the tangent — the pose
construction emits the spec below, whose rotation has third column
`(0,0,1)`: the distance to the unit surface normal `(1,0,1)/√2` is
`√(2−√2) ≈ 0.765`, far beyond the claimed 1e-6.  The z-axis is the
normal re-orthogonalized against the tangent, not the normal itself. -/
theorem poseRotation_z_not_normal_cex :
    (computePoses [⟨⟨0,0,0⟩, ⟨1,0,1⟩⟩] [[⟨0,0,0⟩, ⟨1,0,0⟩]]).2
        = [[⟨⟨0,0,0⟩, ⟨1,0,0⟩, 1, ⟨1,0,1⟩⟩, ⟨⟨1,0,0⟩, ⟨0,0,0⟩, -1, ⟨1,0,1⟩⟩]] ∧
      (1/1000000 : ℝ)^2 < RV3.sqNorm (RV3.sub
        (poseRotation ⟨⟨0,0,0⟩, ⟨1,0,0⟩, 1, ⟨1,0,1⟩⟩).c2
        (RV3.normalized (V3.toR (⟨1,0,1⟩ : V3)))) := by
  constructor
  · decide
  · have hs2 : Real.sqrt 2 * Real.sqrt 2 = 2 := Real.mul_self_sqrt (by norm_num)
    have hspos : 0 < Real.sqrt 2 := Real.sqrt_pos.mpr (by norm_num)
    have hsne : Real.sqrt 2 ≠ 0 := ne_of_gt hspos
    have hs15 : Real.sqrt 2 < 3/2 := by
      by_contra hcon
      push_neg at hcon
      nlinarith [hs2]
    have e1 : RV3.sub (V3.toR (⟨1,0,0⟩ : V3)) (V3.toR (⟨0,0,0⟩ : V3)) = ⟨1, 0, 0⟩ := by
      simp only [RV3.sub, V3.toR, RV3.mk.injEq]
      norm_num
    have e2 : RV3.normalized (⟨1, 0, 0⟩ : RV3) = ⟨1, 0, 0⟩ := by
      apply RV3.normalized_of_unit
      simp only [RV3.sqNorm, RV3.dot]
      norm_num
    have e3 : RV3.smul (((1 : ℚ) : ℝ)) (⟨1, 0, 0⟩ : RV3) = ⟨1, 0, 0⟩ := by
      simp only [RV3.smul, RV3.mk.injEq]
      norm_num
    have e4 : RV3.normalized (V3.toR (⟨1,0,1⟩ : V3))
        = ⟨(Real.sqrt 2)⁻¹, 0, (Real.sqrt 2)⁻¹⟩ := by
      unfold RV3.normalized
      have hq : RV3.sqNorm (V3.toR (⟨1,0,1⟩ : V3)) = 2 := by
        simp only [RV3.sqNorm, RV3.dot, V3.toR]
        norm_num
      rw [hq]
      simp only [RV3.smul, V3.toR, RV3.mk.injEq]
      norm_num
    have e5 : RV3.cross (⟨(Real.sqrt 2)⁻¹, 0, (Real.sqrt 2)⁻¹⟩ : RV3) (⟨1, 0, 0⟩ : RV3)
        = ⟨0, (Real.sqrt 2)⁻¹, 0⟩ := by
      simp only [RV3.cross, RV3.mk.injEq]
      norm_num
    have e6 : RV3.normalized (⟨0, (Real.sqrt 2)⁻¹, 0⟩ : RV3) = ⟨0, 1, 0⟩ := by
      unfold RV3.normalized
      have hsq : RV3.sqNorm (⟨0, (Real.sqrt 2)⁻¹, 0⟩ : RV3) = (Real.sqrt 2)⁻¹ * (Real.sqrt 2)⁻¹ := by
        simp only [RV3.sqNorm, RV3.dot]
        ring
      rw [hsq, Real.sqrt_mul_self (by positivity)]
      simp only [RV3.smul, RV3.mk.injEq]
      refine ⟨by ring, ?_, by ring⟩
      rw [inv_inv]
      field_simp
    have e7 : RV3.cross (⟨1, 0, 0⟩ : RV3) (⟨0, 1, 0⟩ : RV3) = ⟨0, 0, 1⟩ := by
      simp only [RV3.cross, RV3.mk.injEq]
      norm_num
    have e8 : RV3.normalized (⟨0, 0, 1⟩ : RV3) = ⟨0, 0, 1⟩ := by
      apply RV3.normalized_of_unit
      simp only [RV3.sqNorm, RV3.dot]
      norm_num
    have hpr : poseRotation ⟨⟨0,0,0⟩, ⟨1,0,0⟩, 1, ⟨1,0,1⟩⟩
        = toRotationMatrix ⟨1, 0, 0⟩ ⟨0, 1, 0⟩ ⟨0, 0, 1⟩ := by
      unfold poseRotation
      dsimp only
      rw [e1, e2, e3, e4, e5, e6, e7, e8]
    rw [hpr, e4]
    have hinv : (Real.sqrt 2)⁻¹ = Real.sqrt 2 / 2 := by
      field_simp
    simp only [toRotationMatrix, RV3.sub, RV3.sqNorm, RV3.dot]
    rw [hinv]
    nlinarith [hs2, hs15, hspos]

/-- Claim C3 (amended): for every pose spec emitted by `computePoses`, as
long as the tangent is nonzero, the looked-up normal is nonzero and the
two are not parallel, the rotation built by the orientation block is
exactly orthonormal (`‖RᵀR − I‖_F = 0 < 1e-6`) with determinant exactly
`+1`; its third column equals the unit surface normal exactly **when the
normal is perpendicular to the tangent** — otherwise the z-axis is the
re-orthogonalized normal and can be arbitrarily far from the surface
normal (see the counterexample). -/
theorem computePoses_rotation_orthonormal (src : List PN) (curves : List (List V3))
    (cs : List PoseSpec) (s : PoseSpec)
    (hcs : cs ∈ (computePoses src curves).2) (hs : s ∈ cs)
    (ht : V3.sub s.target s.origin ≠ V3.zero)
    (hn : s.nrm ≠ V3.zero)
    (hc : V3.cross s.nrm (V3.sub s.target s.origin) ≠ V3.zero) :
    frobRtRdiffSq (poseRotation s) = 0 ∧ det3 (poseRotation s) = 1 ∧
      (V3.dot s.nrm (V3.sub s.target s.origin) = 0 →
        (poseRotation s).c2 = RV3.normalized (V3.toR s.nrm)) := by
  obtain ⟨c, nrms, _hln, hcs2⟩ := computePoses_mem src curves cs hcs
  have hd := mkSpecs_dir c nrms s (hcs2 ▸ hs)
  have hdR : ((s.dir : ℚ) : ℝ) * ((s.dir : ℚ) : ℝ) = 1 := by
    rcases hd with h | h <;> rw [h] <;> norm_num
  have htR : RV3.sqNorm (RV3.sub (V3.toR s.target) (V3.toR s.origin)) ≠ 0 := by
    rw [toR_sub, sqNormR_toR]
    exact Rat.cast_ne_zero.mpr (V3.sqNorm_ne_zero _ ht)
  have hnR : RV3.sqNorm (V3.toR s.nrm) ≠ 0 := by
    rw [sqNormR_toR]
    exact Rat.cast_ne_zero.mpr (V3.sqNorm_ne_zero _ hn)
  have hcR : RV3.sqNorm (RV3.cross (V3.toR s.nrm)
      (RV3.sub (V3.toR s.target) (V3.toR s.origin))) ≠ 0 := by
    rw [toR_sub, crossR_toR, sqNormR_toR]
    exact Rat.cast_ne_zero.mpr (V3.sqNorm_ne_zero _ hc)
  obtain ⟨⟨hxx, hyy, hzz, hxy, hxz, hyz⟩, hdet, hzc⟩ :=
    frame_core (RV3.sub (V3.toR s.target) (V3.toR s.origin)) (V3.toR s.nrm)
      ((s.dir : ℚ) : ℝ) hdR htR hnR hcR _ _ _ rfl rfl rfl
  have hyx : RV3.dot (RV3.normalized (RV3.cross (RV3.normalized (V3.toR s.nrm))
      (RV3.smul ((s.dir : ℚ) : ℝ)
        (RV3.normalized (RV3.sub (V3.toR s.target) (V3.toR s.origin))))))
      (RV3.smul ((s.dir : ℚ) : ℝ)
        (RV3.normalized (RV3.sub (V3.toR s.target) (V3.toR s.origin)))) = 0 := by
    rw [RV3.dot_comm]
    exact hxy
  refine ⟨?_, ?_, ?_⟩
  · show frobRtRdiffSq (poseRotation s) = 0
    unfold poseRotation frobRtRdiffSq toRotationMatrix
    dsimp only
    rw [hxx, hyy, hzz, hxy, hxz, hyz, hyx]
    rw [RV3.dot_comm] at hxz hyz
    rw [hxz, hyz]
    norm_num
  · show det3 (poseRotation s) = 1
    unfold poseRotation det3 toRotationMatrix
    dsimp only
    exact hdet
  · intro hQ
    have hQR : RV3.dot (V3.toR s.nrm)
        (RV3.sub (V3.toR s.target) (V3.toR s.origin)) = 0 := by
      rw [toR_sub, dotR_toR]
      exact_mod_cast congrArg (fun q : ℚ => (q : ℝ)) hQ
    have := hzc hQR
    show (poseRotation s).c2 = RV3.normalized (V3.toR s.nrm)
    unfold poseRotation toRotationMatrix
    dsimp only
    exact this

/-- Witness for `computePoses_rotation_orthonormal`: the pose emitted for
the tangent `(1,0,0)` with perpendicular normal `(0,0,1)`. -/
theorem computePoses_rotation_orthonormal_witness :
    (([⟨⟨0,0,0⟩, ⟨1,0,0⟩, 1, ⟨0,0,1⟩⟩, ⟨⟨1,0,0⟩, ⟨0,0,0⟩, -1, ⟨0,0,1⟩⟩] : List PoseSpec)
        ∈ (computePoses [⟨⟨0,0,0⟩, ⟨0,0,1⟩⟩] [[⟨0,0,0⟩, ⟨1,0,0⟩]]).2) ∧
      (frobRtRdiffSq (poseRotation ⟨⟨0,0,0⟩, ⟨1,0,0⟩, 1, ⟨0,0,1⟩⟩) = 0 ∧
        det3 (poseRotation ⟨⟨0,0,0⟩, ⟨1,0,0⟩, 1, ⟨0,0,1⟩⟩) = 1 ∧
        (V3.dot (⟨0,0,1⟩ : V3) (V3.sub ⟨1,0,0⟩ ⟨0,0,0⟩) = 0 →
          (poseRotation ⟨⟨0,0,0⟩, ⟨1,0,0⟩, 1, ⟨0,0,1⟩⟩).c2
            = RV3.normalized (V3.toR (⟨0,0,1⟩ : V3)))) :=
  ⟨by decide,
    computePoses_rotation_orthonormal [⟨⟨0,0,0⟩, ⟨0,0,1⟩⟩] [[⟨0,0,0⟩, ⟨1,0,0⟩]]
      [⟨⟨0,0,0⟩, ⟨1,0,0⟩, 1, ⟨0,0,1⟩⟩, ⟨⟨1,0,0⟩, ⟨0,0,0⟩, -1, ⟨0,0,1⟩⟩]
      ⟨⟨0,0,0⟩, ⟨1,0,0⟩, 1, ⟨0,0,1⟩⟩
      (by decide) (by decide) (by decide) (by decide) (by decide)⟩

end RegionDetect
